import Mathlib

/-!
# MoyuShuang reader engine: a shallow embedding of `main.go`

The development follows the source file top to bottom.

* Go strings are byte sequences (`GoString`); `[]rune(s)`, `range s` and
  `strings.Builder.WriteRune` go through the UTF-8 decoder and encoder of the
  Go runtime, which are embedded below (`decodeRuneInString`, `encodeRune`).
* Runes and Go `int`s are natural numbers and integers; no arithmetic in the
  program comes near the 64-bit bounds except the `%d` scan of the jump
  buffer, whose range check is kept (`parseInt64`).
* The Unicode tables of the libraries (`runewidth.RuneWidth`, the case table
  behind `unicode.ToLower`) are parameters, collected in `Tables`.
* The terminal, the file system and the random source are the environment:
  an `Event` carries what `termbox.PollEvent`, `termbox.Size` and
  `os.Open`/`bufio.Scanner` deliver, and `step` takes the value that
  `rand.Intn(10)` returns.
* A run-time panic is a result of its own: `Outcome.panicked` for a pass through
  the loop, `none` for `drawUI`, which otherwise returns the `drawText` calls it
  makes (painting the cells is the terminal library's).
* The progress store is a finite map from paths to records or the nil map, on which
  an assignment panics; `json.Marshal` and `json.Unmarshal` are parameters of
  `saveProgress` and `loadProgress`.
-/

namespace MoyuShuang

/-! ## Go strings and UTF-8 -/

/-- One byte of a Go string. -/
abbrev Byte := Fin 256

/-- A Go `string`: an immutable sequence of bytes, not necessarily valid UTF-8. -/
abbrev GoString := List Byte

/-- Conversion `byte(n)`: keeps the low eight bits. -/
def byte (n : Nat) : Byte := ⟨n % 256, Nat.mod_lt _ (by decide)⟩

/-- The replacement character `utf8.RuneError` (U+FFFD). -/
def RuneError : Nat := 0xFFFD

/-- A rune that `utf8.ValidRune` accepts: at most U+10FFFF and not a surrogate. -/
def ValidRune (r : Nat) : Prop := r ≤ 0x10FFFF ∧ ¬ (0xD800 ≤ r ∧ r ≤ 0xDFFF)

instance (r : Nat) : Decidable (ValidRune r) := by unfold ValidRune; infer_instance

/-- The bytes `utf8.AppendRune` writes for `r` (this is `string(r)` and
`Builder.WriteRune(r)`); shifts and masks are written as `/` and `%`.
A rune that is out of range or a surrogate is written as U+FFFD. -/
def encodeRune (r : Nat) : GoString :=
  if r ≤ 0x7F then [byte r]
  else if r ≤ 0x7FF then [byte (0xC0 + r / 64), byte (0x80 + r % 64)]
  else if r > 0x10FFFF ∨ (0xD800 ≤ r ∧ r ≤ 0xDFFF) then [byte 0xEF, byte 0xBF, byte 0xBD]
  else if r ≤ 0xFFFF then
    [byte (0xE0 + r / 4096), byte (0x80 + r / 64 % 64), byte (0x80 + r % 64)]
  else
    [byte (0xF0 + r / 262144), byte (0x80 + r / 4096 % 64), byte (0x80 + r / 64 % 64),
      byte (0x80 + r % 64)]

/-- The bytes of `string(rs)` for a rune slice `rs`. -/
def encodeRunes (rs : List Nat) : GoString := rs.flatMap encodeRune

/-- The table `utf8.first` joined with `utf8.acceptRanges`: for a lead byte `x`
of a multi-byte sequence, the sequence length and the accepted range of the
second byte; `none` for a byte that cannot start a multi-byte sequence. -/
def leadInfo (x : Nat) : Option (Nat × Nat × Nat) :=
  if 0xC2 ≤ x ∧ x ≤ 0xDF then some (2, 0x80, 0xBF)
  else if x = 0xE0 then some (3, 0xA0, 0xBF)
  else if x = 0xED then some (3, 0x80, 0x9F)
  else if 0xE1 ≤ x ∧ x ≤ 0xEF then some (3, 0x80, 0xBF)
  else if x = 0xF0 then some (4, 0x90, 0xBF)
  else if x = 0xF4 then some (4, 0x80, 0x8F)
  else if 0xF1 ≤ x ∧ x ≤ 0xF3 then some (4, 0x80, 0xBF)
  else none

/-- The byte `s[i]` as a number (0 when `i` is out of range; every use below is
guarded by a length test, as in the source). -/
def byteAt (s : GoString) (i : Nat) : Nat := (s.getD i 0).val

/-- Function `utf8.DecodeRuneInString`: the first rune of `s` and its width in bytes.
An empty string gives `(RuneError, 0)`, an invalid encoding `(RuneError, 1)`. -/
def decodeRuneInString (s : GoString) : Nat × Nat :=
  match s with
  | [] => (RuneError, 0)
  | s0 :: _ =>
    if s0.val < 0x80 then (s0.val, 1)
    else match leadInfo s0.val with
      | none => (RuneError, 1)
      | some (sz, lo, hi) =>
        if s.length < sz then (RuneError, 1)
        else if byteAt s 1 < lo ∨ hi < byteAt s 1 then (RuneError, 1)
        else if sz ≤ 2 then (s0.val % 32 * 64 + byteAt s 1 % 64, 2)
        else if byteAt s 2 < 0x80 ∨ 0xBF < byteAt s 2 then (RuneError, 1)
        else if sz ≤ 3 then (s0.val % 16 * 4096 + byteAt s 1 % 64 * 64 + byteAt s 2 % 64, 3)
        else if byteAt s 3 < 0x80 ∨ 0xBF < byteAt s 3 then (RuneError, 1)
        else
          (s0.val % 8 * 262144 + byteAt s 1 % 64 * 4096 + byteAt s 2 % 64 * 64
            + byteAt s 3 % 64, 4)

/-- The loop behind `[]rune(s)` and `for _, r := range s`, with a step budget. -/
def decodeRunesAux : Nat → GoString → List Nat
  | 0, _ => []
  | n + 1, s =>
    if s = [] then []
    else (decodeRuneInString s).1 :: decodeRunesAux n (s.drop (decodeRuneInString s).2)

/-- The conversion `[]rune(s)`: every step consumes at least one byte, so
`s.length` steps always suffice (`decodeRunesAux_of_le`). -/
def decodeRunes (s : GoString) : List Nat := decodeRunesAux s.length s

/-- Function `utf8.ValidString`, in the form `string([]rune(s)) == s`. -/
def ValidUTF8 (s : GoString) : Prop := encodeRunes (decodeRunes s) = s

instance (s : GoString) : Decidable (ValidUTF8 s) := by unfold ValidUTF8; infer_instance

/-- A Go string literal: the UTF-8 bytes of the text. -/
def str (s : String) : GoString := encodeRunes (s.toList.map Char.toNat)

/-! ## `unicode.IsSpace` and `strings.TrimSpace` -/

/-- The table `asciiSpace` of package `strings`. -/
def asciiSpace (c : Nat) : Bool :=
  c == 9 || c == 10 || c == 11 || c == 12 || c == 13 || c == 32

/-- Function `unicode.IsSpace`: the Latin-1 cases, then the `White_Space` table. -/
def isSpace (r : Nat) : Bool :=
  if r ≤ 0xFF then
    r == 9 || r == 10 || r == 11 || r == 12 || r == 13 || r == 32 || r == 0x85 || r == 0xA0
  else
    r == 0x1680 || (0x2000 ≤ r && r ≤ 0x200A) || r == 0x2028 || r == 0x2029 || r == 0x202F
      || r == 0x205F || r == 0x3000

/-- The predicate `utf8.RuneStart`: the byte is not a continuation byte. -/
def runeStart (b : Nat) : Bool := !(0x80 ≤ b && b ≤ 0xBF)

/-- The index at which `utf8.DecodeLastRuneInString` starts decoding when the last
byte is not ASCII: it walks back from `len(s)-2` to `len(s)-4` (not below 0) and
stops at the first byte that starts a rune. -/
def lastRuneStart (s : GoString) : Nat :=
  let e := s.length
  if 2 ≤ e ∧ runeStart (byteAt s (e - 2)) then e - 2
  else if 3 ≤ e ∧ runeStart (byteAt s (e - 3)) then e - 3
  else if 4 ≤ e ∧ runeStart (byteAt s (e - 4)) then e - 4
  else e - 4 - 1

/-- Function `utf8.DecodeLastRuneInString`: the last rune of `s` and its width. -/
def decodeLastRuneInString (s : GoString) : Nat × Nat :=
  let e := s.length
  if e = 0 then (RuneError, 0)
  else if byteAt s (e - 1) < 0x80 then (byteAt s (e - 1), 1)
  else
    let start := lastRuneStart s
    let d := decodeRuneInString (s.drop start)
    if start + d.2 ≠ e then (RuneError, 1) else d

/-- Function `strings.TrimLeftFunc(s, f)`: drop leading runes while `f` holds. -/
def trimLeftFuncAux (f : Nat → Bool) : Nat → GoString → GoString
  | 0, _ => []
  | n + 1, s =>
    if s = [] then []
    else if f (decodeRuneInString s).1 then
      trimLeftFuncAux f n (s.drop (decodeRuneInString s).2)
    else s

/-- See `trimLeftFuncAux`; `s.length` steps always suffice. -/
def trimLeftFunc (f : Nat → Bool) (s : GoString) : GoString := trimLeftFuncAux f s.length s

/-- Function `strings.lastIndexFunc(s, f, false)` on the first `i` bytes: the start
of the last rune on which `f` fails, if there is one. -/
def lastIndexFuncAux (f : Nat → Bool) (s : GoString) : Nat → Nat → Option Nat
  | 0, _ => none
  | n + 1, i =>
    if i = 0 then none
    else
      let d := decodeLastRuneInString (s.take i)
      if f d.1 then lastIndexFuncAux f s n (i - d.2) else some (i - d.2)

/-- Function `strings.TrimRightFunc(s, f)`. -/
def trimRightFunc (f : Nat → Bool) (s : GoString) : GoString :=
  match lastIndexFuncAux f s s.length s.length with
  | none => []
  | some i =>
    if 0x80 ≤ byteAt s i then s.take (i + (decodeRuneInString (s.drop i)).2)
    else s.take (i + 1)

/-- The second loop of `strings.TrimSpace`: scan `s` (already trimmed on the left)
from the end; `rev` is what is still to be scanned, last byte first. -/
def trimSpaceRight (s : GoString) : List Byte → GoString
  | [] => []
  | c :: rev =>
    if 0x80 ≤ c.val then trimRightFunc isSpace (s.take (rev.length + 1))
    else if asciiSpace c.val then trimSpaceRight s rev
    else s.take (rev.length + 1)

/-- Function `strings.TrimSpace`: the ASCII fast path from the left, falling back to
`TrimFunc(s[start:], unicode.IsSpace)` at the first non-ASCII byte, then the
same from the right. -/
def trimSpace : GoString → GoString
  | [] => []
  | c :: s =>
    if 0x80 ≤ c.val then trimRightFunc isSpace (trimLeftFunc isSpace (c :: s))
    else if asciiSpace c.val then trimSpace s
    else trimSpaceRight (c :: s) (c :: s).reverse

/-! ## External Unicode tables -/

/-- The two library tables the program consults. `runeWidth` is
`runewidth.RuneWidth` (the number of terminal columns of a rune); `toLower` is
the case table behind `unicode.ToLower` for runes above U+007F. -/
structure Tables where
  runeWidth : Nat → Nat
  toLower : Nat → Nat

/-- A table for evaluating examples. It agrees with go-runewidth on ASCII (control
characters 0 columns, printable characters 1 column) and on the CJK Unified
Ideographs U+4E00..U+9FFF (2 columns), and with `unicode.ToLower` on the
Latin-1 capital letters. Every other rune is given 1 column and no lower-case
form; no example depends on the width or the case of such a rune. -/
def exampleTables : Tables where
  runeWidth := fun r =>
    if r < 0x20 ∨ (0x7F ≤ r ∧ r < 0xA0) then 0
    else if 0x4E00 ≤ r ∧ r ≤ 0x9FFF then 2
    else 1
  toLower := fun r => if (0xC0 ≤ r ∧ r ≤ 0xDE) ∧ r ≠ 0xD7 then r + 32 else r

/-! ## `loadAndWrapBook` -/

/-- The variables of the reflow loop: the output slice, the builder, the width
accumulated in the builder. -/
structure WrapState where
  allLines : List GoString
  b : GoString
  currW : Int

/-- One iteration of `for _, r := range runes` in `loadAndWrapBook`. -/
def wrapRune (T : Tables) (maxW : Int) (st : WrapState) (r : Nat) : WrapState :=
  let rw : Int := (T.runeWidth r : Nat)
  let st1 : WrapState :=
    if st.currW + rw > maxW then
      { allLines := st.allLines ++ [st.b], b := [], currW := 0 }
    else st
  { st1 with b := st1.b ++ encodeRune r, currW := st1.currW + rw }

/-- One iteration of `for scanner.Scan()` in `loadAndWrapBook`: `raw` is
`scanner.Text()`, the result is the new value of `allLines`. -/
def wrapLine (T : Tables) (maxW : Int) (allLines : List GoString) (raw : GoString) :
    List GoString :=
  let text := trimSpace raw
  if text = [] then allLines ++ [[]]
  else
    let st := (decodeRunes text).foldl (wrapRune T maxW) ⟨allLines, [], 0⟩
    st.allLines ++ [st.b]

/-- The fragments the reflow loop appends for one raw line. -/
def reflowLine (T : Tables) (maxW : Int) (raw : GoString) : List GoString :=
  wrapLine T maxW [] raw

/-- Function `loadAndWrapBook`. `file` is `none` when `os.Open` fails and otherwise
the lines the scanner yields; `w` is the terminal width from `termbox.Size`. -/
def loadAndWrapBook (T : Tables) (file : Option (List GoString)) (w : Int) : List GoString :=
  match file with
  | none => [str "ERR: STREAM_NOT_FOUND"]
  | some rawLines => rawLines.foldl (wrapLine T (w - 8)) []

/-- Display width of a string: the sum of the widths of its runes. -/
def displayWidth (T : Tables) (s : GoString) : Nat :=
  ((decodeRunes s).map T.runeWidth).sum

/-! ## `strings.ToLower`, `strings.Contains`, `updateSearchResults` -/

/-- Function `unicode.ToLower`. -/
def unicodeToLower (T : Tables) (r : Nat) : Nat :=
  if r ≤ 0x7F then (if 65 ≤ r ∧ r ≤ 90 then r + 32 else r) else T.toLower r

/-- Function `strings.ToLower`: bytewise on an ASCII string, otherwise
`strings.Map(unicode.ToLower, s)`, which decodes and re-encodes every rune. -/
def toLower (T : Tables) (s : GoString) : GoString :=
  if s.all (fun c => decide (c.val < 0x80)) then
    s.map (fun c => if 65 ≤ c.val ∧ c.val ≤ 90 then byte (c.val + 32) else c)
  else encodeRunes ((decodeRunes s).map (unicodeToLower T))

/-- Function `strings.Contains(s, substr)`: `substr` occurs in `s` as a contiguous
run of bytes. -/
def contains : GoString → GoString → Bool
  | [], substr => substr.isEmpty
  | c :: s, substr => substr.isPrefixOf (c :: s) || contains s substr

/-- The loop `for i, line := range lines` of `updateSearchResults`; `i` is the
index of the head of the remaining lines, `acc` is `searchResults` so far. -/
def updateSearchResultsLoop (T : Tables) (query : GoString) :
    List GoString → Int → List Int → List Int
  | [], _, acc => acc
  | line :: rest, i, acc =>
    updateSearchResultsLoop T query rest (i + 1)
      (if contains (toLower T line) query then acc ++ [i] else acc)

/-- Function `updateSearchResults`: the new value of `searchResults`. -/
def updateSearchResults (T : Tables) (lastSearchQuery : GoString) (lines : List GoString) :
    List Int :=
  updateSearchResultsLoop T (toLower T lastSearchQuery) lines 0 []

/-! ## `fmt.Sscanf(jumpQuery, "%d", &target)` -/

/-- An ASCII decimal digit. -/
def isDigit (c : Byte) : Bool := decide (48 ≤ c.val) && decide (c.val ≤ 57)

/-- The number denoted by a string of decimal digits. -/
def digitsValue (ds : GoString) : Nat := ds.foldl (fun a c => a * 10 + (c.val - 48)) 0

/-- Function `strconv.ParseInt(tok, 10, 64)`: an optional sign and at least one
decimal digit, rejected when the value does not fit in 64 bits. -/
def parseInt64 (tok : GoString) : Option Int :=
  let neg : Bool := decide (tok.head? = some (byte 45))
  let ds : GoString :=
    if tok.head? = some (byte 43) ∨ tok.head? = some (byte 45) then tok.drop 1 else tok
  if ds = [] ∨ ¬ (ds.all isDigit = true) then none
  else if neg then
    (if digitsValue ds ≤ 2 ^ 63 then some (-(digitsValue ds : Int)) else none)
  else
    (if digitsValue ds < 2 ^ 63 then some (digitsValue ds : Int) else none)

/-- The value of `target` after `var target int; fmt.Sscanf(s, "%d", &target)` for an
input without leading white space (the jump buffer holds ASCII digits only):
the token is an optional sign followed by the longest run of digits and
underscores; when the scan fails `target` keeps its zero value. -/
def sscanfInt (s : GoString) : Int :=
  let sign : GoString :=
    if s.head? = some (byte 43) ∨ s.head? = some (byte 45) then s.take 1 else []
  let rest : GoString := s.drop sign.length
  let tok := sign ++ rest.takeWhile (fun c => isDigit c || c == byte 95)
  (parseInt64 tok).getD 0


/-! ## The view state and the event loop of `main` -/

/-- Type `Progress`: one persisted record. -/
structure Progress where
  LastLine : Int
  ViewHeight : Int
deriving DecidableEq

/-- The package-level variables of `main.go` that the event loop reads and writes,
with the locals `lines` and `currentLine` of `main`. -/
structure State where
  lines : List GoString
  currentLine : Int
  isSearching : Bool
  isJumping : Bool
  isHelpMode : Bool
  searchActive : Bool
  isBossMode : Bool
  searchQuery : GoString
  jumpQuery : GoString
  lastSearchQuery : GoString
  searchResults : List Int
  matchIndex : Int
  viewHeight : Int
  logOffset : Int
deriving DecidableEq

/-- The values of `termbox.Event.Key` that the program tests; `other` stands for
every other key code, `nokey` for the zero value that accompanies a character. -/
inductive Key
  | nokey | space | enter | esc | backspace | backspace2
  | mouseLeft | mouseWheelUp | mouseWheelDown | other
deriving DecidableEq

/-- What `termbox.PollEvent` returns. A resize event carries what the reload then
observes: the content file as `os.Open` and the scanner deliver it, and the
terminal width as `termbox.Size` reports it (the library takes a new size over
at the next `Clear` or `Flush`, so this is the width of the last `drawUI`).
`other` covers the event types the loop ignores. -/
inductive Event
  | resize (file : Option (List GoString)) (w : Int)
  | mouse (key : Key)
  | key (key : Key) (ch : Nat)
  | other
deriving DecidableEq

/-- The result of one pass through the loop body. `exited` is the `Q` arm, which calls
`saveProgress` on the state it carries and returns from `main`. -/
inductive Outcome
  | running (s : State)
  | exited (s : State)
  | panicked
deriving DecidableEq

/-- Indexing `xs[i]` of a Go slice with an `int` index; `none` is the run-time panic. -/
def sliceGet {α : Type} (xs : List α) (i : Int) : Option α :=
  if 0 ≤ i then xs.get? i.toNat else none

/-- The loop `for i, lineIdx := range searchResults` of `handleSearchInput`: stop at
the first match at or after the current line. -/
def selectMatchLoop : List Int → Int → State → State
  | [], _, s => s
  | lineIdx :: rest, i, s =>
    if lineIdx ≥ s.currentLine then { s with matchIndex := i, currentLine := lineIdx }
    else selectMatchLoop rest (i + 1) s

/-- Function `handleSearchInput`. -/
def handleSearchInput (T : Tables) (key : Key) (ch : Nat) (s : State) : State :=
  if key = Key.enter then
    let s1 := { s with isSearching := false }
    if s1.searchQuery ≠ [] then
      let s2 := { s1 with lastSearchQuery := s1.searchQuery, searchActive := true }
      let s3 := { s2 with searchResults := updateSearchResults T s2.lastSearchQuery s2.lines }
      if s3.searchResults.length > 0 then
        selectMatchLoop s3.searchResults 0 { s3 with matchIndex := 0 }
      else s3
    else s1
  else if key = Key.esc then { s with isSearching := false }
  else if key = Key.backspace ∨ key = Key.backspace2 then
    if s.searchQuery.length > 0 then
      { s with searchQuery := s.searchQuery.take (s.searchQuery.length - 1) }
    else s
  else if ch ≠ 0 then { s with searchQuery := s.searchQuery ++ encodeRune ch }
  else s

/-- Function `handleJumpInput`; `totalLines` is `len(lines)`. -/
def handleJumpInput (key : Key) (ch : Nat) (s : State) : State :=
  let totalLines : Int := s.lines.length
  if key = Key.enter then
    let s1 := { s with isJumping := false }
    let target := sscanfInt s1.jumpQuery
    if target > 0 ∧ target ≤ totalLines then { s1 with currentLine := target - 1 } else s1
  else if key = Key.esc then { s with isJumping := false }
  else if key = Key.backspace ∨ key = Key.backspace2 then
    if s.jumpQuery.length > 0 then
      { s with jumpQuery := s.jumpQuery.take (s.jumpQuery.length - 1) }
    else s
  else if 48 ≤ ch ∧ ch ≤ 57 then { s with jumpQuery := s.jumpQuery ++ encodeRune ch }
  else s

/-- The tail of the loop body: when the line changed, `rand.Intn(10) < 4` decides
whether the decoy log advances. -/
def advanceLog (oldLine : Int) (rnd : Nat) (s : State) : State :=
  if s.currentLine ≠ oldLine then
    (if rnd < 4 then { s with logOffset := s.logOffset + 1 } else s)
  else s

/-- The `termbox.EventMouse` case of the loop. -/
def handleMouse (key : Key) (s : State) : State :=
  if !s.isBossMode && !s.isSearching && !s.isJumping && !s.isHelpMode then
    match key with
    | Key.mouseWheelDown | Key.mouseLeft =>
      if s.currentLine < (s.lines.length : Int) - 1 then
        { s with currentLine := s.currentLine + 1 }
      else s
    | Key.mouseWheelUp =>
      if s.currentLine > 0 then { s with currentLine := s.currentLine - 1 } else s
    | _ => s
  else s

/-- The `n` and `N` cases: move the match cursor by `d` (1 or -1) cyclically and
jump to the match; the slice lookup can panic. -/
def jumpMatch (d : Int) (s : State) : Option State :=
  if s.searchActive ∧ s.searchResults.length > 0 then
    let len : Int := s.searchResults.length
    let m : Int := if d = 1 then (s.matchIndex + 1).tmod len
      else (s.matchIndex - 1 + len).tmod len
    match sliceGet s.searchResults m with
    | none => none
    | some line => some { s with matchIndex := m, currentLine := line }
  else some s

/-- The `switch ev.Ch` of the loop, for a character other than `Q`. -/
def handleChar (ch : Nat) (s : State) : Option State :=
  if ch = 104 ∨ ch = 63 then some { s with isHelpMode := !s.isHelpMode }
  else if ch = 106 then
    some (if s.currentLine < (s.lines.length : Int) - 1 then
      { s with currentLine := s.currentLine + 1 } else s)
  else if ch = 107 then
    some (if s.currentLine > 0 then { s with currentLine := s.currentLine - 1 } else s)
  else if ch = 47 then some { s with isSearching := true, searchQuery := [], isHelpMode := false }
  else if ch = 71 then some { s with isJumping := true, jumpQuery := [], isHelpMode := false }
  else if ch = 110 then jumpMatch 1 s
  else if ch = 78 then jumpMatch (-1) s
  else if ch = 43 ∨ ch = 61 then
    some (if s.viewHeight < 12 then { s with viewHeight := s.viewHeight + 1 } else s)
  else if ch = 45 ∨ ch = 95 then
    some (if s.viewHeight > 1 then { s with viewHeight := s.viewHeight - 1 } else s)
  else some s

/-- The test `if ev.Key == termbox.KeyEsc` after the switch. -/
def handleEsc (key : Key) (s : State) : State :=
  if key = Key.esc then
    { s with isHelpMode := false, isSearching := false, isJumping := false,
             searchActive := false }
  else s

/-- The `termbox.EventKey` case of the loop. -/
def handleKey (T : Tables) (key : Key) (ch : Nat) (rnd : Nat) (s : State) : Outcome :=
  if key = Key.space then
    Outcome.running { s with isBossMode := !s.isBossMode, isHelpMode := false,
                             isSearching := false, isJumping := false }
  else if s.isBossMode then Outcome.running s
  else if s.isSearching then Outcome.running (handleSearchInput T key ch s)
  else if s.isJumping then Outcome.running (handleJumpInput key ch s)
  else if ch = 81 then Outcome.exited s
  else
    match handleChar ch s with
    | none => Outcome.panicked
    | some s1 => Outcome.running (advanceLog s.currentLine rnd (handleEsc key s1))

/-- One pass through the body of the `for` loop of `main` after `PollEvent` has
returned `ev`; `rnd` is what `rand.Intn(10)` returns if it is called. The call
of `drawUI` at the head of the body does not change the state. -/
def step (T : Tables) (s : State) (ev : Event) (rnd : Nat) : Outcome :=
  match ev with
  | Event.resize file w =>
    Outcome.running (advanceLog s.currentLine rnd { s with lines := loadAndWrapBook T file w })
  | Event.mouse key => Outcome.running (advanceLog s.currentLine rnd (handleMouse key s))
  | Event.key key ch => handleKey T key ch rnd s
  | Event.other => Outcome.running s

/-- The state in which `main` enters the loop: `p` is the entry of the loaded
progress store for the book path (if any), `file` and `w` are what the first
`loadAndWrapBook` observes. -/
def initState (T : Tables) (p : Option Progress) (file : Option (List GoString)) (w : Int) :
    State :=
  let viewHeight : Int :=
    match p with
    | some q => if q.ViewHeight > 0 then q.ViewHeight else 3
    | none => 3
  let lines := loadAndWrapBook T file w
  let currentLine : Int := match p with
    | some q => q.LastLine
    | none => 0
  { lines := lines,
    currentLine := if currentLine ≥ (lines.length : Int) then 0 else currentLine,
    isSearching := false, isJumping := false, isHelpMode := false, searchActive := false,
    isBossMode := false, searchQuery := [], jumpQuery := [], lastSearchQuery := [],
    searchResults := [], matchIndex := 0, viewHeight := viewHeight, logOffset := 0 }

/-- Run the loop over a list of events (each with its random draw) while it keeps
running; the last outcome is returned. -/
def run (T : Tables) : Outcome → List (Event × Nat) → Outcome
  | Outcome.running s, (ev, rnd) :: rest => run T (step T s ev rnd) rest
  | o, _ => o

/-- A state in which the loop can be waiting for an event: reached from a startup
state by finitely many passes through the loop body. -/
inductive Reachable (T : Tables) : State → Prop
  | init (p : Option Progress) (file : Option (List GoString)) (w : Int) :
      Reachable T (initState T p file w)
  | step (s s1 : State) (ev : Event) (rnd : Nat) :
      Reachable T s → step T s ev rnd = Outcome.running s1 → Reachable T s1


/-! ## Predicates used in the statements -/

/-- The loop invariant of the reflow loop for widths: every fragment emitted so far
fits, and the builder holds valid runes whose widths add up to `currW`, which fits. -/
def WrapInv (T : Tables) (maxW : Int) (st : WrapState) : Prop :=
  (∀ f ∈ st.allLines, (displayWidth T f : Int) ≤ maxW) ∧
  ∃ bs : List Nat, (∀ r ∈ bs, ValidRune r) ∧ st.b = encodeRunes bs ∧
    st.currW = ((bs.map T.runeWidth).sum : Nat) ∧ st.currW ≤ maxW

/-- The state of an outcome in which the loop is still running. -/
def Outcome.state : Outcome → Option State
  | Outcome.running s => some s
  | _ => none

/-- At most one of the four mode flags is set. -/
def ModeExclusive (s : State) : Prop :=
  [s.isSearching, s.isJumping, s.isHelpMode, s.isBossMode].count true ≤ 1

instance (s : State) : Decidable (ModeExclusive s) := by unfold ModeExclusive; infer_instance

/-- The three-fragment document of the search example. -/
def exampleBook : List GoString := [str "hello boss", str "nothing", str "BOSS mode"]

/-- A document of ten short lines. -/
def tenLineBook : List GoString := List.replicate 10 (str "line")

/-- Startup on `exampleBook` in an 80-column terminal with no saved progress. -/
def exampleState : State := initState exampleTables none (some exampleBook) 80

/-- The match cursor indexes the match set whenever that is non-empty. -/
def CursorOk (s : State) : Prop :=
  s.searchResults ≠ [] → 0 ≤ s.matchIndex ∧ s.matchIndex < (s.searchResults.length : Int)

instance (s : State) : Decidable (CursorOk s) := by unfold CursorOk; infer_instance

/-- Index `x` is a valid index of `lines` and the fragment there contains the query
`q`, both lowercased. -/
def validMatch (T : Tables) (lines : List GoString) (q : GoString) (x : Int) : Bool :=
  match sliceGet lines x with
  | some line => contains (toLower T line) (toLower T q)
  | none => false

/-- Every index in the match set is a valid index of the current fragments whose
fragment contains the last committed query case-insensitively. -/
def ResultsValid (T : Tables) (s : State) : Prop :=
  ∀ x ∈ s.searchResults, validMatch T s.lines s.lastSearchQuery x = true

instance (T : Tables) (s : State) : Decidable (ResultsValid T s) := by
  unfold ResultsValid; infer_instance

/-! ## `drawUI` and the decoy lines -/

/-- The initial value of the variable `dynamicLogs`: the built-in decoy log lines. -/
def dynamicLogs : List GoString :=
  [str "[INFO] 初始化：魔芋爽全自动工业产线 (Build: 0.9.5-SPICY)",
   str "[DEBUG] 压力检测：螺旋挤压机压力处于 150Mpa，符合《爽学》标准",
   str "[INFO] 正在调配：卫龙秘制香辣红油 (配方号: RED_HOT_09)",
   str "[WARN] 传感器报警：切片机 03 号刀片磨损度 85%，建议停机更换",
   str "[INFO] 实时监测：魔芋精粉纯度 99.8%，Q弹系数检测中...",
   str "[DEBUG] 注入二氧化碳... 模拟毛肚缝隙口感填充 (Sequence: BELLY_SIM)",
   str "[ERROR] 故障：3 号搅拌池检测到非计划辣条侵入，正在自动拦截",
   str "[INFO] 包装工序：正在抽真空，当前残氧量 < 0.01%",
   str "[DEBUG] 生产效率：5000 包/小时，当前 MoyuShuang 贡献率：99%",
   str "[INFO] 同步：正在将“爽度”数据上传至云端大数据分析中心",
   str "[DEBUG] 检测到周边存在“老板”异常干扰信号，自动切换至静默运行模式..."]

/-- The variable `helpDocs`: the lines of the help overlay. -/
def helpDocs : List GoString :=
  [str "SYSDIAG(8)                System Diagnostics Manual               SYSDIAG(8)",
   str "NAME: MoyuShuang - Wojiuwen Ni Mode Shuang Bu'shuang",
   str "",
   str "CONTROLS:",
   str "  j, MouseLeft, MouseDown   : Step forward in data stream (Next line)",
   str "  k, MouseUp     : Step backward in data stream (Prev line)",
   str "  Space     : Toggle BOSS_MODE (Immediate UI suspension)",
   str "  /, G           : Search metadata / Jump to line offset",
   str "  n, N           : Navigate through search matches",
   str "  +, -           : Resize dynamic kernel buffer height",
   str "  h, ?           : Show/Hide this diagnostic manual",
   str "  Q              : Terminate daemon and sync state to cache",
   str "",
   str "NOTES: \"Moyushuang\" is a unit for measuring the degree of \"Shuang\"."]

/-- Function `loadFakeLogs`: the value of `dynamicLogs` afterwards. `file` is `none` when
the decoy file cannot be opened and otherwise the lines the scanner yields. -/
def loadFakeLogs (file : Option (List GoString)) (logs : List GoString) : List GoString :=
  match file with
  | none => logs
  | some rawLines =>
    let newLogs := (rawLines.map trimSpace).filter (fun line => decide (line ≠ []))
    if newLogs.length > 0 then newLogs else logs

/-- The foreground attributes that `drawUI` passes to `drawText`. -/
inductive Color
  | cyan | yellow | red | darkGray | blue | green | yellowBold | magentaBold | blackBold
deriving DecidableEq

/-- One call `drawText(x, y, text, fg, termbox.ColorDefault)`; painting the cells is
left to the terminal library. -/
structure DrawCall where
  x : Int
  y : Int
  text : GoString
  fg : Color
deriving DecidableEq

/-- The `%d` verb of `fmt.Sprintf`: the decimal digits of an `int`. -/
def formatInt (i : Int) : GoString := str (toString i)

/-- The colour of a decoy log line, by its level tag. -/
def logColor (content : GoString) : Color :=
  if contains content (str "[WARN]") then Color.yellow
  else if contains content (str "[ERROR]") then Color.red
  else if contains content (str "[DEBUG]") then Color.darkGray
  else Color.cyan

/-- The loop `for i := 0; i < logAreaH; i++` of `drawUI` over the remaining values of
`i`; `none` is a run-time panic (`%` by a zero length, or an index out of
range). -/
def drawLogs (logs : List GoString) (logOffset : Int) : List Nat → Option (List DrawCall)
  | [] => some []
  | i :: rest =>
    if logs.length = 0 then none
    else
      match sliceGet logs (((i : Int) + logOffset).tmod (logs.length : Int)) with
      | none => none
      | some content =>
        match drawLogs logs logOffset rest with
        | none => none
        | some calls => some (⟨0, i, content, logColor content⟩ :: calls)

/-- The loop `for i := 0; i < viewHeight; i++` of the reading pane over the remaining
values of `i`; `none` is an index panic in `lines[idx]`. -/
def drawPane (h : Int) (s : State) : List Nat → Option (List DrawCall)
  | [] => some []
  | i :: rest =>
    let idx : Int := s.currentLine + i
    if idx < (s.lines.length : Int) then
      match sliceGet s.lines idx with
      | none => none
      | some line =>
        match drawPane h s rest with
        | none => none
        | some calls =>
          some (⟨0, h - s.viewHeight + i, str ">> " ++ line, Color.blackBold⟩ :: calls)
    else drawPane h s rest

/-- The loop `for i, doc := range helpDocs` of `drawUI`, from index `i` on. -/
def drawHelp (h : Int) : Nat → List GoString → List DrawCall
  | _, [] => []
  | i, doc :: rest =>
    ⟨0, h - (helpDocs.length : Int) + i, doc, Color.green⟩ :: drawHelp h (i + 1) rest

/-- Function `drawUI`: the calls of `drawText` it makes, in order, for the decoy lines
`logs` (the variable `dynamicLogs`) and a terminal `h` rows high; `none` when
it panics. The arguments of `fmt.Sprintf` are evaluated in every mode, so the
division by `len(lines)` is too. -/
def drawUI (logs : List GoString) (h : Int) (s : State) : Option (List DrawCall) :=
  let logAreaH : Int :=
    if s.isHelpMode then h - (helpDocs.length : Int) - 3 else h - s.viewHeight - 3
  match drawLogs logs s.logOffset (List.range logAreaH.toNat) with
  | none => none
  | some logCalls =>
    let statusY : Int :=
      if s.isHelpMode then h - (helpDocs.length : Int) - 2 else h - s.viewHeight - 2
    if s.lines.length = 0 then none
    else
      let running : GoString :=
        str "--- STATE: RUNNING | Mo-Shuang Scale: "
          ++ formatInt (((s.currentLine + 1) * 100).tdiv (s.lines.length : Int))
          ++ str "% | ID: " ++ formatInt (s.currentLine + 1) ++ str "/"
          ++ formatInt (s.lines.length : Int) ++ str " "
      let statusLine : GoString :=
        if s.isBossMode then str "--- STATE: SUSPENDED (KERNEL_WAIT) ---" else running
      let status : DrawCall := ⟨0, statusY, statusLine, Color.blue⟩
      let bottom : Option (List DrawCall) :=
        if s.isBossMode then
          some [⟨0, h - 1, str ">> [IDLE] Awaiting SIGCONT...", Color.darkGray⟩]
        else if s.isHelpMode then some (drawHelp h 0 helpDocs)
        else if s.isSearching then
          some [⟨0, h - 1, str "GREP_SCAN: /" ++ s.searchQuery, Color.yellowBold⟩]
        else if s.isJumping then
          some [⟨0, h - 1, str "ADDR_JUMP: " ++ s.jumpQuery, Color.magentaBold⟩]
        else drawPane h s (List.range s.viewHeight.toNat)
      match bottom with
      | none => none
      | some calls => some (logCalls ++ status :: calls)

/-! ## `saveProgress` and `loadProgress` -/

/-- The map `progressStore`, of type `map[string]Progress`. `none` is the nil map, which
reads as empty and panics when an entry is assigned; `some m` is a map, given by
the list of its entries: the entry of a path is the first pair with that path. -/
abbrev Store := Option (List (GoString × Progress))

/-- The lookup `p, ok := progressStore[k]`; `none` is `ok == false`. -/
def storeGet (store : Store) (k : GoString) : Option Progress :=
  match store with
  | none => none
  | some m => m.lookup k

/-- The assignment `m[k] = p` on a map that is not nil. -/
def mapSet : List (GoString × Progress) → GoString → Progress → List (GoString × Progress)
  | [], k, p => [(k, p)]
  | e :: m, k, p => if e.1 = k then (k, p) :: m else e :: mapSet m k p

/-- Function `saveProgress`; `progressStore`, `bookPath` and `viewHeight` are the
package variables it reads, `jsonMarshal` is `json.Marshal` on the store. The
result is the new `progressStore` and the data handed to `os.WriteFile`; `none`
is the run-time panic of the assignment `progressStore[bookPath] = p` on a nil
map, before anything is written. The function is called in the `Q` arm of the
key switch, which `step` reports as `Outcome.exited`. -/
def saveProgress (jsonMarshal : Store → GoString) (progressStore : Store)
    (bookPath : GoString) (viewHeight : Int) (line : Int) : Option (Store × GoString) :=
  let p : Progress := { LastLine := line, ViewHeight := viewHeight }
  match progressStore with
  | none => none
  | some m =>
    let store : Store := some (mapSet m bookPath p)
    some (store, jsonMarshal store)

/-- Function `loadProgress`: the value of `progressStore` afterwards. `file` is `none`
when the cache file cannot be read; `jsonUnmarshal data store` is what
`json.Unmarshal(data, &store)` leaves in the map, its error being ignored. -/
def loadProgress (jsonUnmarshal : GoString → Store → Store) (file : Option GoString)
    (progressStore : Store) : Store :=
  match file with
  | none => progressStore
  | some data => jsonUnmarshal data progressStore

/-- The initial value `make(map[string]Progress)` of `progressStore`. -/
def emptyStore : Store := some []

/-! ### A codec for the examples -/

/-- The order `a < b` on Go strings: bytewise lexicographic. -/
def strLess : GoString → GoString → Bool
  | _, [] => false
  | [], _ :: _ => true
  | a :: as, b :: bs => decide (a.val < b.val) || (a == b && strLess as bs)

/-- Insertion of an entry into a list of entries sorted by path; an entry with the
same path is replaced. -/
def insertEntry (e : GoString × Progress) : List (GoString × Progress) →
    List (GoString × Progress)
  | [] => [e]
  | f :: rest =>
    if f.1 = e.1 then e :: rest
    else if strLess f.1 e.1 then f :: insertEntry e rest
    else e :: f :: rest

/-- One member of the JSON object: the path as a string without escapes, and the
record with its two fields. -/
def exampleMarshalEntry (e : GoString × Progress) : GoString :=
  str "\"" ++ e.1 ++ str "\":\x7b\"last_line\":" ++ formatInt e.2.LastLine
    ++ str ",\"view_height\":" ++ formatInt e.2.ViewHeight ++ str "\x7d"

/-- An encoder for evaluating examples. It agrees with `json.Marshal` on the nil map
and on every map whose paths are valid UTF-8 and hold no control character, none
of the characters that the encoder escapes (the double quote, the backslash,
the less-than and greater-than signs, the ampersand) and no line or paragraph
separator: the members are written in the order of the paths, without white
space. No example depends on another path. -/
def exampleMarshal : Store → GoString
  | none => str "null"
  | some m =>
    str "\x7b" ++ (str ",").intercalate ((m.foldr insertEntry []).map exampleMarshalEntry)
      ++ str "\x7d"

/-- Removal of the literal `lit` from the head of the input. -/
def expectLit (lit s : GoString) : Option GoString :=
  if lit.isPrefixOf s then some (s.drop lit.length) else none

/-- A decimal integer at the head of the input, and the rest. -/
def scanInt (s : GoString) : Option (Int × GoString) :=
  let neg : Bool := decide (s.head? = some (byte 45))
  let s1 : GoString := if neg then s.drop 1 else s
  let ds : GoString := s1.takeWhile isDigit
  if ds = [] then none
  else some (if neg then -(digitsValue ds : Int) else (digitsValue ds : Int), s1.drop ds.length)

/-- One member at the head of the input, in the form `exampleMarshalEntry` writes,
and the rest. -/
def scanEntry (s : GoString) : Option ((GoString × Progress) × GoString) :=
  match expectLit (str "\"") s with
  | none => none
  | some s1 =>
    let k : GoString := s1.takeWhile (fun c => c != byte 34 && c != byte 92)
    match expectLit (str "\":\x7b\"last_line\":") (s1.drop k.length) with
    | none => none
    | some s2 =>
      match scanInt s2 with
      | none => none
      | some (a, s3) =>
        match expectLit (str ",\"view_height\":") s3 with
        | none => none
        | some s4 =>
          match scanInt s4 with
          | none => none
          | some (b, s5) =>
            match expectLit (str "\x7d") s5 with
            | none => none
            | some s6 => some ((k, { LastLine := a, ViewHeight := b }), s6)

/-- The members of an object after its opening brace, up to the closing brace at the
end of the input; `fuel` bounds the number of members. -/
def scanEntries : Nat → GoString → Option (List (GoString × Progress))
  | 0, _ => none
  | fuel + 1, s =>
    match scanEntry s with
    | none => none
    | some (e, rest) =>
      if rest = str "\x7d" then some [e]
      else
        match expectLit (str ",") rest with
        | none => none
        | some rest1 =>
          match scanEntries fuel rest1 with
          | none => none
          | some es => some (e :: es)

/-- A decoder for evaluating examples. It agrees with `json.Unmarshal` on the document
`null`, which sets the map to nil, and on the documents that `exampleMarshal`
writes for a map, whose members are assigned to the map one after the other (a
nil map being replaced by a new one first). Every other document is taken to be
in error and leaves the map as it is; no example depends on such a document. -/
def exampleUnmarshal (data : GoString) (store : Store) : Store :=
  if data = str "null" then none
  else if data = str "\x7b\x7d" then some (store.getD [])
  else
    match expectLit (str "\x7b") data with
    | none => store
    | some body =>
      match scanEntries data.length body with
      | none => store
      | some es => some (es.foldl (fun m e => mapSet m e.1 e.2) (store.getD []))

/-- The document that `json.Marshal` writes for the map with the entries
`/a -> {7, 4}` and `/b -> {1, 3}`. -/
def exampleDocument : GoString :=
  str "\x7b\"/a\":\x7b\"last_line\":7,\"view_height\":4\x7d,"
    ++ str "\"/b\":\x7b\"last_line\":1,\"view_height\":3\x7d\x7d"

/-! ## Further predicates used in the statements -/

/-- The sum of the widths of a rune sequence. -/
def widthSum (T : Tables) (rs : List Nat) : Nat := (rs.map T.runeWidth).sum

/-- A fragment boundary between the rune sequences `c` and `d` is forced: `d` has a
first rune, and appending it to `c` would exceed `maxW`. -/
def Forced (T : Tables) (maxW : Int) (c d : List Nat) : Prop :=
  ∃ r rest, d = r :: rest ∧ (widthSum T c : Int) + (T.runeWidth r : Int) > maxW

/-- The loop invariant of the reflow loop for greediness: the fragments emitted so far
and the builder are the encodings of rune sequences `chunks` and `bs` of valid
runes, the width in the builder is that of `bs`, every emitted sequence is
non-empty, and every boundary so far was forced. -/
def GreedyInv (T : Tables) (maxW : Int) (st : WrapState) : Prop :=
  ∃ (chunks : List (List Nat)) (bs : List Nat),
    st.allLines = chunks.map encodeRunes ∧ st.b = encodeRunes bs ∧
    st.currW = (widthSum T bs : Nat) ∧
    (∀ c ∈ chunks, c ≠ []) ∧ (∀ c ∈ chunks, ∀ r ∈ c, ValidRune r) ∧
    (∀ r ∈ bs, ValidRune r) ∧ List.Chain' (Forced T maxW) (chunks ++ [bs])

/-- What `drawUI` needs of a state in order not to panic, with what keeps it so: there
is a fragment, the current line and the log offset are not negative, and no
match index is negative. -/
def DrawSafe (s : State) : Prop :=
  s.lines ≠ [] ∧ 0 ≤ s.currentLine ∧ 0 ≤ s.logOffset ∧ ∀ x ∈ s.searchResults, (0 : Int) ≤ x

/-! # Theorems -/

/-! ## Lemmas on the UTF-8 codec -/

@[simp] theorem byte_val (n : Nat) : (byte n).val = n % 256 := rfl

theorem leadInfo_eq (x : Nat) :
    leadInfo x =
      if 0xC2 ≤ x ∧ x ≤ 0xDF then some (2, 0x80, 0xBF)
      else if x = 0xE0 then some (3, 0xA0, 0xBF)
      else if x = 0xED then some (3, 0x80, 0x9F)
      else if 0xE1 ≤ x ∧ x ≤ 0xEF then some (3, 0x80, 0xBF)
      else if x = 0xF0 then some (4, 0x90, 0xBF)
      else if x = 0xF4 then some (4, 0x80, 0x8F)
      else if 0xF1 ≤ x ∧ x ≤ 0xF3 then some (4, 0x80, 0xBF)
      else none := rfl

theorem byteAt_lt (s : GoString) (i : Nat) : byteAt s i < 256 := (s.getD i 0).isLt

/-- What an entry of the lead-byte table says about the lead byte. -/
theorem leadInfo_some (x sz lo hi : Nat) (h : leadInfo x = some (sz, lo, hi)) :
    (sz = 2 ∧ 0xC2 ≤ x ∧ x ≤ 0xDF ∧ lo = 0x80 ∧ hi = 0xBF) ∨
    (sz = 3 ∧ x = 0xE0 ∧ lo = 0xA0 ∧ hi = 0xBF) ∨
    (sz = 3 ∧ x = 0xED ∧ lo = 0x80 ∧ hi = 0x9F) ∨
    (sz = 3 ∧ 0xE1 ≤ x ∧ x ≤ 0xEF ∧ x ≠ 0xED ∧ lo = 0x80 ∧ hi = 0xBF) ∨
    (sz = 4 ∧ x = 0xF0 ∧ lo = 0x90 ∧ hi = 0xBF) ∨
    (sz = 4 ∧ x = 0xF4 ∧ lo = 0x80 ∧ hi = 0x8F) ∨
    (sz = 4 ∧ 0xF1 ≤ x ∧ x ≤ 0xF3 ∧ lo = 0x80 ∧ hi = 0xBF) := by
  rw [leadInfo_eq] at h
  split_ifs at h <;> simp only [Option.some.injEq, Prod.mk.injEq] at h <;>
    obtain ⟨rfl, rfl, rfl⟩ := h <;> simp <;> omega

/-- Decoding a non-empty string consumes between one and four bytes and yields a
valid rune. -/
theorem decodeRune_spec (s : GoString) (h : s ≠ []) :
    1 ≤ (decodeRuneInString s).2 ∧ (decodeRuneInString s).2 ≤ s.length ∧
      ValidRune (decodeRuneInString s).1 := by
  cases s with
  | nil => exact absurd rfl h
  | cons s0 t =>
    have h0 := s0.isLt
    have h1 := byteAt_lt (s0 :: t) 1
    have h2 := byteAt_lt (s0 :: t) 2
    have h3 := byteAt_lt (s0 :: t) 3
    simp only [decodeRuneInString, ValidRune, RuneError, List.length_cons]
    generalize byteAt (s0 :: t) 1 = b1 at *
    generalize byteAt (s0 :: t) 2 = b2 at *
    generalize byteAt (s0 :: t) 3 = b3 at *
    generalize (s0 : Nat) = x at *
    generalize t.length = n at *
    by_cases hx : x < 128
    · rw [if_pos hx]; simp only []; omega
    rw [if_neg hx]
    cases hl : leadInfo x with
    | none => simp only []; omega
    | some p =>
      obtain ⟨sz, lo, hi⟩ := p
      simp only []
      rcases leadInfo_some x sz lo hi hl with hc | hc | hc | hc | hc | hc | hc
      · obtain ⟨rfl, hx1, hx2, rfl, rfl⟩ := hc
        split_ifs <;> simp only [] <;> omega
      · obtain ⟨rfl, rfl, rfl, rfl⟩ := hc
        split_ifs <;> simp only [] <;> omega
      · obtain ⟨rfl, rfl, rfl, rfl⟩ := hc
        split_ifs <;> simp only [] <;> omega
      · obtain ⟨rfl, hx1, hx2, hx3, rfl, rfl⟩ := hc
        split_ifs <;> simp only [] <;> omega
      · obtain ⟨rfl, rfl, rfl, rfl⟩ := hc
        split_ifs <;> simp only [] <;> omega
      · obtain ⟨rfl, rfl, rfl, rfl⟩ := hc
        split_ifs <;> simp only [] <;> omega
      · obtain ⟨rfl, hx1, hx2, rfl, rfl⟩ := hc
        split_ifs <;> simp only [] <;> omega

theorem decodeRune_encodeRune (r : Nat) (h : ValidRune r) (t : GoString) :
    decodeRuneInString (encodeRune r ++ t) = (r, (encodeRune r).length) := by
  obtain ⟨hmax, hsur⟩ := h
  unfold encodeRune
  by_cases h1 : r ≤ 0x7F
  · rw [if_pos h1]
    simp [decodeRuneInString]
    split_ifs <;> first | omega | (simp; omega)
  rw [if_neg h1]
  by_cases h2 : r ≤ 0x7FF
  · rw [if_pos h2]
    have e : leadInfo ((192 + r / 64) % 256) = some (2, 0x80, 0xBF) := by
      rw [leadInfo_eq, if_pos (by omega)]
    simp [decodeRuneInString, byteAt, e]
    split_ifs <;> first | omega | (simp; omega)
  rw [if_neg h2, if_neg (by omega)]
  by_cases h3 : r ≤ 0xFFFF
  · rw [if_pos h3]
    by_cases h4 : r < 4096
    · have e : leadInfo ((224 + r / 4096) % 256) = some (3, 0xA0, 0xBF) := by
        rw [leadInfo_eq, if_neg (by omega), if_pos (by omega)]
      simp [decodeRuneInString, byteAt, e]
      split_ifs <;> first | omega | (simp; omega)
    by_cases h5 : 0xD000 ≤ r ∧ r < 0xE000
    · have e : leadInfo ((224 + r / 4096) % 256) = some (3, 0x80, 0x9F) := by
        rw [leadInfo_eq, if_neg (by omega), if_neg (by omega), if_pos (by omega)]
      simp [decodeRuneInString, byteAt, e]
      split_ifs <;> first | omega | (simp; omega)
    · have e : leadInfo ((224 + r / 4096) % 256) = some (3, 0x80, 0xBF) := by
        rw [leadInfo_eq, if_neg (by omega), if_neg (by omega), if_neg (by omega),
          if_pos (by omega)]
      simp [decodeRuneInString, byteAt, e]
      split_ifs <;> first | omega | (simp; omega)
  rw [if_neg h3]
  by_cases h4 : r < 0x40000
  · have e : leadInfo ((240 + r / 262144) % 256) = some (4, 0x90, 0xBF) := by
      rw [leadInfo_eq, if_neg (by omega), if_neg (by omega), if_neg (by omega),
        if_neg (by omega), if_pos (by omega)]
    simp [decodeRuneInString, byteAt, e]
    split_ifs <;> first | omega | (simp; omega)
  by_cases h5 : 0x100000 ≤ r
  · have e : leadInfo ((240 + r / 262144) % 256) = some (4, 0x80, 0x8F) := by
      rw [leadInfo_eq, if_neg (by omega), if_neg (by omega), if_neg (by omega),
        if_neg (by omega), if_neg (by omega), if_pos (by omega)]
    simp [decodeRuneInString, byteAt, e]
    split_ifs <;> first | omega | (simp; omega)
  · have e : leadInfo ((240 + r / 262144) % 256) = some (4, 0x80, 0xBF) := by
      rw [leadInfo_eq, if_neg (by omega), if_neg (by omega), if_neg (by omega),
        if_neg (by omega), if_neg (by omega), if_neg (by omega), if_pos (by omega)]
    simp [decodeRuneInString, byteAt, e]
    split_ifs <;> first | omega | (simp; omega)

theorem encodeRune_ne_nil (r : Nat) : encodeRune r ≠ [] := by
  unfold encodeRune; split_ifs <;> simp

/-- More budget than bytes changes nothing. -/
theorem decodeRunesAux_eq (n : Nat) : ∀ (m : Nat) (s : GoString), s.length ≤ n → s.length ≤ m →
    decodeRunesAux n s = decodeRunesAux m s := by
  induction n with
  | zero =>
    intro m s hn _
    have hs : s = [] := List.length_eq_zero.mp (Nat.le_zero.mp hn)
    subst hs
    cases m <;> simp [decodeRunesAux]
  | succ n ih =>
    intro m s hn hm
    cases m with
    | zero =>
      have hs : s = [] := List.length_eq_zero.mp (Nat.le_zero.mp hm)
      subst hs
      simp [decodeRunesAux]
    | succ m =>
      by_cases hs : s = []
      · simp [decodeRunesAux, hs]
      · have hw := (decodeRune_spec s hs).1
        have hl : 0 < s.length := List.length_pos.mpr hs
        simp only [decodeRunesAux, if_neg hs]
        rw [ih m _ (by rw [List.length_drop]; omega) (by rw [List.length_drop]; omega)]

theorem decodeRunesAux_of_le (n : Nat) (s : GoString) (h : s.length ≤ n) :
    decodeRunesAux n s = decodeRunes s :=
  decodeRunesAux_eq n s.length s h (Nat.le_refl _)

theorem decodeRunes_nil : decodeRunes [] = [] := rfl

theorem decodeRunes_of_ne_nil (s : GoString) (h : s ≠ []) :
    decodeRunes s =
      (decodeRuneInString s).1 :: decodeRunes (s.drop (decodeRuneInString s).2) := by
  have hw := (decodeRune_spec s h).1
  have hl : 0 < s.length := List.length_pos.mpr h
  obtain ⟨n, hn⟩ : ∃ n, s.length = n + 1 := ⟨s.length - 1, by omega⟩
  unfold decodeRunes
  rw [hn]
  simp only [decodeRunesAux, if_neg h]
  rw [decodeRunesAux_of_le n _ (by rw [List.length_drop]; omega)]
  rfl

theorem decodeRunes_valid_aux (n : Nat) : ∀ s : GoString, s.length ≤ n →
    ∀ r ∈ decodeRunes s, ValidRune r := by
  induction n with
  | zero =>
    intro s hs r hr
    have : s = [] := List.length_eq_zero.mp (Nat.le_zero.mp hs)
    subst this
    simp [decodeRunes_nil] at hr
  | succ n ih =>
    intro s hn r hr
    by_cases hs : s = []
    · subst hs; simp [decodeRunes_nil] at hr
    · rw [decodeRunes_of_ne_nil s hs] at hr
      have hsp := decodeRune_spec s hs
      rcases List.mem_cons.mp hr with h | h
      · rw [h]; exact hsp.2.2
      · exact ih (s.drop (decodeRuneInString s).2)
          (by rw [List.length_drop]; omega) r h

/-- Every rune of `[]rune(s)` is a valid rune. -/
theorem decodeRunes_valid (s : GoString) : ∀ r ∈ decodeRunes s, ValidRune r :=
  decodeRunes_valid_aux s.length s (Nat.le_refl _)

theorem decodeRunes_encodeRune_append (r : Nat) (h : ValidRune r) (t : GoString) :
    decodeRunes (encodeRune r ++ t) = r :: decodeRunes t := by
  have hne : encodeRune r ++ t ≠ [] := by
    simp [encodeRune_ne_nil]
  rw [decodeRunes_of_ne_nil _ hne, decodeRune_encodeRune r h t]
  simp

/-- Decoding the encoding of valid runes gives the runes back. -/
theorem decodeRunes_encodeRunes (rs : List Nat) (h : ∀ r ∈ rs, ValidRune r) :
    decodeRunes (encodeRunes rs) = rs := by
  induction rs with
  | nil => rfl
  | cons r rs ih =>
    have h1 : encodeRunes (r :: rs) = encodeRune r ++ encodeRunes rs := by
      simp [encodeRunes]
    rw [h1, decodeRunes_encodeRune_append r (h r (List.mem_cons_self _ _)),
      ih (fun x hx => h x (List.mem_cons_of_mem _ hx))]

/-! ## Reflow -/

theorem encodeRunes_append (xs ys : List Nat) :
    encodeRunes (xs ++ ys) = encodeRunes xs ++ encodeRunes ys := by
  simp [encodeRunes]

theorem encodeRunes_singleton (r : Nat) : encodeRunes [r] = encodeRune r := by
  simp [encodeRunes]

/-- The bytes written so far (fragments and builder together) grow by exactly the
encoding of each rune. -/
theorem foldl_wrapRune_flatten (T : Tables) (maxW : Int) (rs : List Nat) :
    ∀ st : WrapState,
      ((rs.foldl (wrapRune T maxW) st).allLines ++ [(rs.foldl (wrapRune T maxW) st).b]).flatten
        = (st.allLines ++ [st.b]).flatten ++ encodeRunes rs := by
  induction rs with
  | nil => intro st; simp [encodeRunes]
  | cons r rs ih =>
    intro st
    rw [List.foldl_cons, ih]
    have : encodeRunes (r :: rs) = encodeRune r ++ encodeRunes rs := by simp [encodeRunes]
    rw [this]
    simp only [wrapRune]
    split_ifs <;> simp

/-- The concatenated fragments of a line are the re-encoded runes of the trimmed line. -/
theorem reflowLine_flatten (T : Tables) (maxW : Int) (raw : GoString) :
    (reflowLine T maxW raw).flatten = encodeRunes (decodeRunes (trimSpace raw)) := by
  unfold reflowLine wrapLine
  by_cases h : trimSpace raw = []
  · simp [h, decodeRunes_nil, encodeRunes]
  · simp only [if_neg h]
    rw [foldl_wrapRune_flatten]
    simp

/-- The reflow loop only appends to `allLines`: started with `acc` already emitted it
ends with `acc` followed by what it emits when started with nothing. -/
theorem foldl_wrapRune_acc (T : Tables) (maxW : Int) (rs : List Nat) :
    ∀ (acc : List GoString) (b : GoString) (w : Int),
      rs.foldl (wrapRune T maxW) ⟨acc, b, w⟩ =
        { allLines := acc ++ (rs.foldl (wrapRune T maxW) ⟨[], b, w⟩).allLines,
          b := (rs.foldl (wrapRune T maxW) ⟨[], b, w⟩).b,
          currW := (rs.foldl (wrapRune T maxW) ⟨[], b, w⟩).currW } := by
  induction rs with
  | nil => intro acc b w; simp
  | cons r rs ih =>
    intro acc b w
    simp only [List.foldl_cons, wrapRune]
    split_ifs
    · rw [ih (acc ++ [b]), ih ([] ++ [b])]
      simp
    · rw [ih acc]

/-- Each pass of the scanner loop appends the fragments of its line to `allLines`. -/
theorem wrapLine_eq_append (T : Tables) (maxW : Int) (allLines : List GoString)
    (raw : GoString) :
    wrapLine T maxW allLines raw = allLines ++ reflowLine T maxW raw := by
  simp only [reflowLine, wrapLine]
  split_ifs
  · simp
  · rw [foldl_wrapRune_acc T maxW _ allLines]
    simp

/-- The fragment sequence of a file is the concatenation of the fragments of its lines. -/
theorem loadAndWrapBook_some (T : Tables) (rawLines : List GoString) (w : Int) :
    loadAndWrapBook T (some rawLines) w = rawLines.flatMap (reflowLine T (w - 8)) := by
  simp only [loadAndWrapBook]
  have h : ∀ (ls acc : List GoString),
      ls.foldl (wrapLine T (w - 8)) acc = acc ++ ls.flatMap (reflowLine T (w - 8)) := by
    intro ls
    induction ls with
    | nil => intro acc; simp
    | cons l ls ih =>
      intro acc
      rw [List.foldl_cons, ih, wrapLine_eq_append]
      simp
  rw [h]
  simp

theorem wrapRune_inv (T : Tables) (maxW : Int) (st : WrapState) (r : Nat)
    (hinv : WrapInv T maxW st) (hr : ValidRune r) (hw : (T.runeWidth r : Int) ≤ maxW) :
    WrapInv T maxW (wrapRune T maxW st r) := by
  obtain ⟨hall, bs, hbs, hb, hc, hle⟩ := hinv
  by_cases hgt : st.currW + (T.runeWidth r : Int) > maxW
  · simp only [wrapRune, if_pos hgt]
    refine ⟨?_, [r], ?_, ?_, ?_, ?_⟩
    · intro f hf
      rcases List.mem_append.mp hf with h | h
      · exact hall f h
      · have : f = st.b := by simpa using h
        rw [this, hb, displayWidth, decodeRunes_encodeRunes bs hbs, ← hc]
        exact hle
    · intro x hx
      have : x = r := by simpa using hx
      rw [this]; exact hr
    · simp [encodeRunes]
    · simp
    · simpa using hw
  · simp only [wrapRune, if_neg hgt]
    refine ⟨hall, bs ++ [r], ?_, ?_, ?_, ?_⟩
    · intro x hx
      rcases List.mem_append.mp hx with h | h
      · exact hbs x h
      · have : x = r := by simpa using h
        rw [this]; exact hr
    · rw [encodeRunes_append, encodeRunes_singleton, hb]
    · simp [hc]
    · simp only []; omega

theorem foldl_wrapRune_inv (T : Tables) (maxW : Int) (rs : List Nat) :
    ∀ st : WrapState, WrapInv T maxW st → (∀ r ∈ rs, ValidRune r) →
      (∀ r ∈ rs, (T.runeWidth r : Int) ≤ maxW) →
      WrapInv T maxW (rs.foldl (wrapRune T maxW) st) := by
  induction rs with
  | nil => intro st h _ _; exact h
  | cons r rs ih =>
    intro st h hv hw
    rw [List.foldl_cons]
    exact ih _ (wrapRune_inv T maxW st r h (hv r (List.mem_cons_self _ _))
        (hw r (List.mem_cons_self _ _)))
      (fun x hx => hv x (List.mem_cons_of_mem _ hx))
      (fun x hx => hw x (List.mem_cons_of_mem _ hx))

theorem WrapInv.final (T : Tables) (maxW : Int) (st : WrapState) (h : WrapInv T maxW st) :
    ∀ f ∈ st.allLines ++ [st.b], (displayWidth T f : Int) ≤ maxW := by
  obtain ⟨hall, bs, hbs, hb, hc, hle⟩ := h
  intro f hf
  rcases List.mem_append.mp hf with h | h
  · exact hall f h
  · have : f = st.b := by simpa using h
    rw [this, hb, displayWidth, decodeRunes_encodeRunes bs hbs, ← hc]
    exact hle

/-- C1 (as amended): for a positive `maxWidth`, when no rune of the trimmed line is
wider than `maxWidth` (in particular whenever `maxWidth ≥ 2`, rune widths being
at most 2), every fragment the reflow loop produces for the line has display
width at most `maxWidth`. -/
theorem reflowLine_width_le (T : Tables) (maxW : Int) (raw : GoString) (hpos : 0 < maxW)
    (hw : ∀ r ∈ decodeRunes (trimSpace raw), (T.runeWidth r : Int) ≤ maxW) :
    ∀ f ∈ reflowLine T maxW raw, (displayWidth T f : Int) ≤ maxW := by
  unfold reflowLine wrapLine
  by_cases h : trimSpace raw = []
  · simp only [if_pos h]
    intro f hf
    have : f = [] := by simpa using hf
    rw [this]
    simp [displayWidth, decodeRunes_nil]
    omega
  · simp only [if_neg h]
    apply WrapInv.final
    apply foldl_wrapRune_inv T maxW _ _ _ (decodeRunes_valid _) hw
    refine ⟨by simp, [], by simp, by simp [encodeRunes], by simp, by simp; omega⟩


theorem reflowLine_width_le_witness :
    (0 : Int) < 4 ∧ ∀ f ∈ reflowLine exampleTables 4 (str "  a中b中c中  "),
      (displayWidth exampleTables f : Int) ≤ 4 :=
  ⟨by decide,
    reflowLine_width_le exampleTables 4 (str "  a中b中c中  ") (by decide) (by decide)⟩

/-- C1 (as stated) fails: at `maxWidth = 1` (a terminal 9 columns wide) the line
consisting of the double-width rune U+4E2D yields the fragments `""` and
`"中"`, and the second is 2 columns wide. -/
theorem reflowLine_width_counterexample :
    reflowLine exampleTables 1 (str "中") = [[], str "中"] ∧
      displayWidth exampleTables (str "中") = 2 ∧
      ¬ (∀ f ∈ reflowLine exampleTables 1 (str "中"),
          (displayWidth exampleTables f : Int) ≤ 1) := by
  decide

/-- C2 (as amended): for every raw line whose trimmed text is valid UTF-8 and every
`maxWidth`, concatenating in order the fragments the reflow loop produces for
the line yields exactly the trimmed line. -/
theorem reflowLine_concat (T : Tables) (maxW : Int) (raw : GoString)
    (h : ValidUTF8 (trimSpace raw)) :
    (reflowLine T maxW raw).flatten = trimSpace raw := by
  rw [reflowLine_flatten]
  exact h

theorem reflowLine_concat_witness :
    ValidUTF8 (trimSpace (str "  a中b中c中  ")) ∧
      (reflowLine exampleTables 4 (str "  a中b中c中  ")).flatten
        = trimSpace (str "  a中b中c中  ") :=
  ⟨by decide, reflowLine_concat exampleTables 4 (str "  a中b中c中  ") (by decide)⟩

/-- C2 (as stated) fails on a line that is not valid UTF-8: for the Latin-1 bytes
of "café" (`63 61 66 E9`) the trimmed line is the line itself, the only
fragment is `"caf"` followed by the three bytes of U+FFFD, and so the
concatenation differs from the trimmed line. -/
theorem reflowLine_concat_counterexample :
    trimSpace [0x63, 0x61, 0x66, 0xE9] = [0x63, 0x61, 0x66, 0xE9] ∧
      reflowLine exampleTables 10 [0x63, 0x61, 0x66, 0xE9]
        = [[0x63, 0x61, 0x66, 0xEF, 0xBF, 0xBD]] ∧
      (reflowLine exampleTables 10 [0x63, 0x61, 0x66, 0xE9]).flatten
        ≠ trimSpace [0x63, 0x61, 0x66, 0xE9] := by
  decide

/-! ## Search commit -/

/-- The selection loop changes only the match cursor and the current line: either it
stops at the first match at or after the current line, or no match qualifies
and it changes nothing. -/
theorem selectMatchLoop_spec (rs : List Int) : ∀ (i : Int) (s : State),
    (∃ k : Nat, selectMatchLoop rs i s =
          { s with matchIndex := i + k, currentLine := (selectMatchLoop rs i s).currentLine } ∧
        rs.get? k = some (selectMatchLoop rs i s).currentLine ∧
        s.currentLine ≤ (selectMatchLoop rs i s).currentLine ∧
        ∀ j : Nat, j < k → ∀ x, rs.get? j = some x → x < s.currentLine) ∨
    ((∀ x ∈ rs, x < s.currentLine) ∧ selectMatchLoop rs i s = s) := by
  induction rs with
  | nil => intro i s; right; simp [selectMatchLoop]
  | cons r rs ih =>
    intro i s
    by_cases h : r ≥ s.currentLine
    · left
      refine ⟨0, ?_, ?_, ?_, ?_⟩
      · simp [selectMatchLoop, h]
      · simp [selectMatchLoop, h]
      · simp [selectMatchLoop, h]
      · intro j hj; omega
    · simp only [selectMatchLoop, if_neg h]
      rcases ih (i + 1) s with ⟨k, h1, h2, h3, h4⟩ | ⟨h1, h2⟩
      · left
        refine ⟨k + 1, ?_, ?_, h3, ?_⟩
        · rw [h1]
          simp only [Nat.cast_add, Nat.cast_one]
          congr 1
          omega
        · simpa using h2
        · intro j hj x hx
          cases j with
          | zero =>
            simp at hx
            omega
          | succ j => exact h4 j (by omega) x (by simpa using hx)
      · right
        refine ⟨?_, h2⟩
        intro x hx
        rcases List.mem_cons.mp hx with hx | hx
        · omega
        · exact h1 x hx

/-- The two outcomes of a search commit with a non-empty buffer whose match set is
non-empty: the match set is the fresh search result and either the cursor is
the position of the first match at or after the current line and the current
line becomes that match, or every match lies before the current line, the
cursor is 0 and the current line is unchanged. -/
theorem search_commit (T : Tables) (s : State) (ch rnd : Nat)
    (hB : s.isBossMode = false) (hS : s.isSearching = true) (hq : s.searchQuery ≠ [])
    (hres : updateSearchResults T s.searchQuery s.lines ≠ []) :
    ∃ s1, step T s (Event.key Key.enter ch) rnd = Outcome.running s1 ∧
      s1.searchResults = updateSearchResults T s.searchQuery s.lines ∧
      ((∃ k : Nat, s1.matchIndex = k ∧ s1.searchResults.get? k = some s1.currentLine ∧
          s.currentLine ≤ s1.currentLine ∧
          ∀ j : Nat, j < k → ∀ x, s1.searchResults.get? j = some x → x < s.currentLine) ∨
       ((∀ x ∈ s1.searchResults, x < s.currentLine) ∧ s1.matchIndex = 0 ∧
          s1.currentLine = s.currentLine)) := by
  have hlen : (updateSearchResults T s.searchQuery s.lines).length > 0 :=
    List.length_pos.mpr hres
  have hstep : step T s (Event.key Key.enter ch) rnd = Outcome.running
      (selectMatchLoop (updateSearchResults T s.searchQuery s.lines) 0
        { s with isSearching := false, lastSearchQuery := s.searchQuery, searchActive := true,
                 searchResults := updateSearchResults T s.searchQuery s.lines,
                 matchIndex := 0 }) := by
    simp [step, handleKey, hB, hS, handleSearchInput, hq, hlen]
  rw [hstep]
  rcases selectMatchLoop_spec (updateSearchResults T s.searchQuery s.lines) 0
      { s with isSearching := false, lastSearchQuery := s.searchQuery, searchActive := true,
               searchResults := updateSearchResults T s.searchQuery s.lines,
               matchIndex := 0 } with ⟨k, h1, h2, h3, h4⟩ | ⟨h1, h2⟩
  · refine ⟨_, rfl, ?_, Or.inl ⟨k, ?_, ?_, h3, ?_⟩⟩
    · rw [h1]
    · rw [h1]; simp
    · rw [h1]; simpa using h2
    · rw [h1]; simpa using h4
  · refine ⟨_, rfl, ?_, Or.inr ⟨?_, ?_, ?_⟩⟩
    · rw [h2]
    · rw [h2]; simpa using h1
    · rw [h2]
    · rw [h2]

theorem search_commit_witness :
    ∃ s1, step exampleTables
        { exampleState with currentLine := 1, isSearching := true, searchQuery := str "boss" }
        (Event.key Key.enter 0) 0 = Outcome.running s1 ∧
      s1.searchResults = updateSearchResults exampleTables (str "boss") exampleState.lines ∧
      ((∃ k : Nat, s1.matchIndex = k ∧ s1.searchResults.get? k = some s1.currentLine ∧
          1 ≤ s1.currentLine ∧
          ∀ j : Nat, j < k → ∀ x, s1.searchResults.get? j = some x → x < 1) ∨
       ((∀ x ∈ s1.searchResults, x < 1) ∧ s1.matchIndex = 0 ∧ s1.currentLine = 1)) :=
  search_commit exampleTables
    { exampleState with currentLine := 1, isSearching := true, searchQuery := str "boss" }
    0 0 (by decide) (by decide) (by decide) (by decide)

/-- The second outcome with a single match: on `["boss", "x", "y"]`, after moving to
line 2 and searching for "boss", the match set is `[0]`, the cursor is 0, the
match at the cursor is line 0, and the current line is still 2. -/
theorem search_commit_counterexample :
    (run exampleTables
        (Outcome.running (initState exampleTables none (some [str "boss", str "x", str "y"]) 80))
        [(Event.key Key.nokey 106, 9), (Event.key Key.nokey 106, 9),
         (Event.key Key.nokey 47, 9), (Event.key Key.nokey 98, 9),
         (Event.key Key.nokey 111, 9), (Event.key Key.nokey 115, 9),
         (Event.key Key.nokey 115, 9), (Event.key Key.enter 0, 9)]).state.map
      (fun s => (s.searchResults, s.matchIndex, sliceGet s.searchResults s.matchIndex,
        s.currentLine))
      = some ([0], 0, some 0, 2) := by
  decide

/-! ## The index bound -/

theorem reachable_run (T : Tables) (evs : List (Event × Nat)) : ∀ (s s1 : State),
    Reachable T s → run T (Outcome.running s) evs = Outcome.running s1 → Reachable T s1 := by
  induction evs with
  | nil =>
    intro s s1 hr h
    simp only [run, Outcome.running.injEq] at h
    rw [← h]; exact hr
  | cons e evs ih =>
    intro s s1 hr h
    obtain ⟨ev, rnd⟩ := e
    simp only [run] at h
    cases hs : step T s ev rnd with
    | running s2 =>
      rw [hs] at h
      exact ih s2 s1 (Reachable.step s s2 ev rnd hr hs) h
    | exited s2 =>
      rw [hs] at h
      cases evs <;> simp [run] at h
    | panicked =>
      rw [hs] at h
      cases evs <;> simp [run] at h

/-- C4 (the code breaks it): startup on the one-line file "abcd" in a terminal 10
columns wide gives the fragments "ab", "cd"; the key `j` moves to line 1; a
resize to 12 columns rebuilds the fragments to the single "abcd" and leaves
the current line at 1, which is no valid index. -/
theorem resize_breaks_index_bound :
    ∃ s, Reachable exampleTables s ∧ s.lines = [str "abcd"] ∧ s.currentLine = 1 ∧
      ¬ (0 ≤ s.currentLine ∧ s.currentLine < (s.lines.length : Int)) :=
  ⟨{ initState exampleTables none (some [str "abcd"]) 12 with currentLine := 1 },
    reachable_run exampleTables
      [(Event.key Key.nokey 106, 9), (Event.resize (some [str "abcd"]) 12, 9)]
      (initState exampleTables none (some [str "abcd"]) 10) _
      (Reachable.init none (some [str "abcd"]) 10) (by decide),
    by decide, by decide, by decide⟩

/-! ## The help overlay -/

/-- C5 (the code breaks it): with the help overlay open (after `h`), the key `j`
still advances the current line from 0 to 1, and the overlay stays open. -/
theorem help_overlay_key_navigates :
    (run exampleTables (Outcome.running exampleState)
        [(Event.key Key.nokey 104, 9)]).state.map
      (fun s => (s.isHelpMode, s.currentLine)) = some (true, 0) ∧
    (run exampleTables (Outcome.running exampleState)
        [(Event.key Key.nokey 104, 9), (Event.key Key.nokey 106, 9)]).state.map
      (fun s => (s.isHelpMode, s.currentLine)) = some (true, 1) := by
  decide

/-- With the help overlay open every mouse event leaves the state unchanged. -/
theorem help_overlay_mouse_inert (T : Tables) (s : State) (k : Key) (rnd : Nat)
    (hH : s.isHelpMode = true) : step T s (Event.mouse k) rnd = Outcome.running s := by
  simp [step, handleMouse, hH, advanceLog]

/-- With the help overlay open the keys `h` and `?` close it: all four mode flags are
false afterwards and the current line is unchanged. -/
theorem help_overlay_toggle (T : Tables) (s : State) (ch rnd : Nat)
    (hH : s.isHelpMode = true) (hB : s.isBossMode = false) (hS : s.isSearching = false)
    (hJ : s.isJumping = false) (hch : ch = 104 ∨ ch = 63) :
    step T s (Event.key Key.nokey ch) rnd = Outcome.running { s with isHelpMode := false } := by
  rcases hch with rfl | rfl <;>
    simp [step, handleKey, hB, hS, hJ, handleChar, handleEsc, advanceLog, hH]

/-! ## Suspend mode -/

/-- C6: from any state that is not suspended (Normal, Searching, Jumping or
HelpOverlay) the suspend-toggle key leads to a state with `isBossMode` set and
the other three mode flags cleared, and a second press leads to a state with
all four flags cleared, whatever the mode was before. -/
theorem suspend_toggle (T : Tables) (s : State) (ch rnd ch2 rnd2 : Nat)
    (hB : s.isBossMode = false) :
    ∃ s1 s2, step T s (Event.key Key.space ch) rnd = Outcome.running s1 ∧
      s1.isBossMode = true ∧ s1.isSearching = false ∧ s1.isJumping = false ∧
      s1.isHelpMode = false ∧
      step T s1 (Event.key Key.space ch2) rnd2 = Outcome.running s2 ∧
      s2.isBossMode = false ∧ s2.isSearching = false ∧ s2.isJumping = false ∧
      s2.isHelpMode = false := by
  refine ⟨{ s with isBossMode := !s.isBossMode, isHelpMode := false, isSearching := false,
                   isJumping := false },
    { s with isBossMode := !(!s.isBossMode), isHelpMode := false, isSearching := false,
             isJumping := false }, ?_, ?_, rfl, rfl, rfl, ?_, ?_, rfl, rfl, rfl⟩
  · simp [step, handleKey]
  · simp [hB]
  · simp [step, handleKey]
  · simp [hB]

theorem suspend_toggle_witness :
    ∃ s1 s2, step exampleTables { exampleState with isSearching := true, searchQuery := str "bo" }
        (Event.key Key.space 0) 0 = Outcome.running s1 ∧
      s1.isBossMode = true ∧ s1.isSearching = false ∧ s1.isJumping = false ∧
      s1.isHelpMode = false ∧
      step exampleTables s1 (Event.key Key.space 0) 0 = Outcome.running s2 ∧
      s2.isBossMode = false ∧ s2.isSearching = false ∧ s2.isJumping = false ∧
      s2.isHelpMode = false :=
  suspend_toggle exampleTables { exampleState with isSearching := true, searchQuery := str "bo" }
    0 0 0 0 (by decide)

/-- C7: while suspended, every mouse event and every key event other than the
suspend toggle leaves the whole state unchanged. -/
theorem suspended_inert (T : Tables) (s : State) (ev : Event) (rnd : Nat)
    (hB : s.isBossMode = true)
    (hev : (∃ k, ev = Event.mouse k) ∨ (∃ k ch, ev = Event.key k ch ∧ k ≠ Key.space)) :
    step T s ev rnd = Outcome.running s := by
  rcases hev with ⟨k, rfl⟩ | ⟨k, ch, rfl, hk⟩
  · simp [step, handleMouse, hB, advanceLog]
  · simp [step, handleKey, hk, hB]

theorem suspended_inert_witness :
    step exampleTables { exampleState with isBossMode := true } (Event.key Key.nokey 106) 0
      = Outcome.running { exampleState with isBossMode := true } :=
  suspended_inert exampleTables { exampleState with isBossMode := true }
    (Event.key Key.nokey 106) 0 (by decide) (Or.inr ⟨Key.nokey, 106, rfl, by decide⟩)

/-! ## Mode flags -/

theorem count_true_le_one_iff (a b c d : Bool) :
    [a, b, c, d].count true ≤ 1 ↔
      (a = false ∨ b = false) ∧ (a = false ∨ c = false) ∧ (a = false ∨ d = false) ∧
      (b = false ∨ c = false) ∧ (b = false ∨ d = false) ∧ (c = false ∨ d = false) := by
  cases a <;> cases b <;> cases c <;> cases d <;> decide

theorem modeExclusive_iff (s : State) :
    ModeExclusive s ↔
      (s.isSearching = false ∨ s.isJumping = false) ∧
      (s.isSearching = false ∨ s.isHelpMode = false) ∧
      (s.isSearching = false ∨ s.isBossMode = false) ∧
      (s.isJumping = false ∨ s.isHelpMode = false) ∧
      (s.isJumping = false ∨ s.isBossMode = false) ∧
      (s.isHelpMode = false ∨ s.isBossMode = false) :=
  count_true_le_one_iff _ _ _ _

/-- The selection loop writes only `matchIndex` and `currentLine`. -/
theorem selectMatchLoop_frame (rs : List Int) : ∀ (i : Int) (s : State),
    (selectMatchLoop rs i s).lines = s.lines ∧
    (selectMatchLoop rs i s).isSearching = s.isSearching ∧
    (selectMatchLoop rs i s).isJumping = s.isJumping ∧
    (selectMatchLoop rs i s).isHelpMode = s.isHelpMode ∧
    (selectMatchLoop rs i s).searchActive = s.searchActive ∧
    (selectMatchLoop rs i s).isBossMode = s.isBossMode ∧
    (selectMatchLoop rs i s).searchQuery = s.searchQuery ∧
    (selectMatchLoop rs i s).jumpQuery = s.jumpQuery ∧
    (selectMatchLoop rs i s).lastSearchQuery = s.lastSearchQuery ∧
    (selectMatchLoop rs i s).searchResults = s.searchResults ∧
    (selectMatchLoop rs i s).viewHeight = s.viewHeight ∧
    (selectMatchLoop rs i s).logOffset = s.logOffset := by
  induction rs with
  | nil => intro i s; simp [selectMatchLoop]
  | cons r rs ih =>
    intro i s
    simp only [selectMatchLoop]
    split_ifs
    · simp
    · exact ih (i + 1) s

theorem selectMatchLoop_isSearching (rs : List Int) (i : Int) (s : State) :
    (selectMatchLoop rs i s).isSearching = s.isSearching := (selectMatchLoop_frame rs i s).2.1

theorem selectMatchLoop_isJumping (rs : List Int) (i : Int) (s : State) :
    (selectMatchLoop rs i s).isJumping = s.isJumping := (selectMatchLoop_frame rs i s).2.2.1

theorem selectMatchLoop_isHelpMode (rs : List Int) (i : Int) (s : State) :
    (selectMatchLoop rs i s).isHelpMode = s.isHelpMode := (selectMatchLoop_frame rs i s).2.2.2.1

theorem selectMatchLoop_isBossMode (rs : List Int) (i : Int) (s : State) :
    (selectMatchLoop rs i s).isBossMode = s.isBossMode :=
  (selectMatchLoop_frame rs i s).2.2.2.2.2.1

/-- The tail of the loop body writes only `logOffset`. -/
theorem advanceLog_flags (oldLine : Int) (rnd : Nat) (s : State) :
    (advanceLog oldLine rnd s).isSearching = s.isSearching ∧
    (advanceLog oldLine rnd s).isJumping = s.isJumping ∧
    (advanceLog oldLine rnd s).isHelpMode = s.isHelpMode ∧
    (advanceLog oldLine rnd s).isBossMode = s.isBossMode := by
  simp only [advanceLog]
  split_ifs <;> simp

theorem advanceLog_modeExclusive (oldLine : Int) (rnd : Nat) (s : State)
    (h : ModeExclusive s) : ModeExclusive (advanceLog oldLine rnd s) := by
  obtain ⟨h1, h2, h3, h4⟩ := advanceLog_flags oldLine rnd s
  rw [modeExclusive_iff] at h ⊢
  rw [h1, h2, h3, h4]
  exact h

theorem handleMouse_flags (key : Key) (s : State) :
    (handleMouse key s).isSearching = s.isSearching ∧
    (handleMouse key s).isJumping = s.isJumping ∧
    (handleMouse key s).isHelpMode = s.isHelpMode ∧
    (handleMouse key s).isBossMode = s.isBossMode := by
  cases key <;> simp only [handleMouse] <;> split_ifs <;> simp

theorem handleSearchInput_flags (T : Tables) (key : Key) (ch : Nat) (s : State) :
    (handleSearchInput T key ch s).isJumping = s.isJumping ∧
    (handleSearchInput T key ch s).isHelpMode = s.isHelpMode ∧
    (handleSearchInput T key ch s).isBossMode = s.isBossMode ∧
    ((handleSearchInput T key ch s).isSearching = true → s.isSearching = true) := by
  simp only [handleSearchInput]
  split_ifs <;>
    simp [selectMatchLoop_isSearching, selectMatchLoop_isJumping, selectMatchLoop_isHelpMode,
      selectMatchLoop_isBossMode]

theorem handleJumpInput_flags (key : Key) (ch : Nat) (s : State) :
    (handleJumpInput key ch s).isSearching = s.isSearching ∧
    (handleJumpInput key ch s).isHelpMode = s.isHelpMode ∧
    (handleJumpInput key ch s).isBossMode = s.isBossMode ∧
    ((handleJumpInput key ch s).isJumping = true → s.isJumping = true) := by
  simp only [handleJumpInput]
  split_ifs <;> simp

theorem jumpMatch_flags (d : Int) (s s1 : State) (h : jumpMatch d s = some s1) :
    s1.isSearching = s.isSearching ∧ s1.isJumping = s.isJumping ∧
    s1.isHelpMode = s.isHelpMode ∧ s1.isBossMode = s.isBossMode := by
  simp only [jumpMatch] at h
  split_ifs at h
  · split at h
    · exact absurd h (by simp)
    · simp only [Option.some.injEq] at h
      subst h
      simp
  · split at h
    · exact absurd h (by simp)
    · simp only [Option.some.injEq] at h
      subst h
      simp
  · simp only [Option.some.injEq] at h
    subst h
    simp

/-- From Normal or HelpOverlay the character switch leaves at most one flag set. -/
theorem handleChar_flags (ch : Nat) (s s1 : State) (h : handleChar ch s = some s1)
    (hB : s.isBossMode = false) (hS : s.isSearching = false) (hJ : s.isJumping = false) :
    ModeExclusive s1 := by
  rw [modeExclusive_iff]
  unfold handleChar at h
  by_cases c0 : ch = 104 ∨ ch = 63
  · rw [if_pos c0] at h
    simp only [Option.some.injEq] at h; subst h; simp [hB, hS, hJ]
  rw [if_neg c0] at h
  by_cases c1 : ch = 106
  · rw [if_pos c1] at h
    split_ifs at h <;> (simp only [Option.some.injEq] at h; subst h; simp [hB, hS, hJ])
  rw [if_neg c1] at h
  by_cases c2 : ch = 107
  · rw [if_pos c2] at h
    split_ifs at h <;> (simp only [Option.some.injEq] at h; subst h; simp [hB, hS, hJ])
  rw [if_neg c2] at h
  by_cases c3 : ch = 47
  · rw [if_pos c3] at h
    simp only [Option.some.injEq] at h; subst h; simp [hB, hS, hJ]
  rw [if_neg c3] at h
  by_cases c4 : ch = 71
  · rw [if_pos c4] at h
    simp only [Option.some.injEq] at h; subst h; simp [hB, hS, hJ]
  rw [if_neg c4] at h
  by_cases c5 : ch = 110
  · rw [if_pos c5] at h
    obtain ⟨h1, h2, h3, h4⟩ := jumpMatch_flags _ _ _ h; simp [h1, h2, h3, h4, hB, hS, hJ]
  rw [if_neg c5] at h
  by_cases c6 : ch = 78
  · rw [if_pos c6] at h
    obtain ⟨h1, h2, h3, h4⟩ := jumpMatch_flags _ _ _ h; simp [h1, h2, h3, h4, hB, hS, hJ]
  rw [if_neg c6] at h
  by_cases c7 : ch = 43 ∨ ch = 61
  · rw [if_pos c7] at h
    split_ifs at h <;> (simp only [Option.some.injEq] at h; subst h; simp [hB, hS, hJ])
  rw [if_neg c7] at h
  by_cases c8 : ch = 45 ∨ ch = 95
  · rw [if_pos c8] at h
    split_ifs at h <;> (simp only [Option.some.injEq] at h; subst h; simp [hB, hS, hJ])
  rw [if_neg c8] at h
  simp only [Option.some.injEq] at h; subst h; simp [hB, hS, hJ]

theorem handleEsc_modeExclusive (key : Key) (s : State) (h : ModeExclusive s) :
    ModeExclusive (handleEsc key s) := by
  rw [modeExclusive_iff] at h ⊢
  simp only [handleEsc]
  split_ifs
  · simp
  · exact h

theorem step_modeExclusive (T : Tables) (s s1 : State) (ev : Event) (rnd : Nat)
    (h : ModeExclusive s) (hs : step T s ev rnd = Outcome.running s1) : ModeExclusive s1 := by
  cases ev with
  | resize file w =>
    simp only [step, Outcome.running.injEq] at hs
    subst hs
    exact advanceLog_modeExclusive _ _ _ h
  | mouse key =>
    simp only [step, Outcome.running.injEq] at hs
    subst hs
    apply advanceLog_modeExclusive
    obtain ⟨h1, h2, h3, h4⟩ := handleMouse_flags key s
    rw [modeExclusive_iff] at h ⊢
    rw [h1, h2, h3, h4]
    exact h
  | other =>
    simp only [step, Outcome.running.injEq] at hs
    subst hs
    exact h
  | key key ch =>
    simp only [step, handleKey] at hs
    split_ifs at hs with h1 h2 h3 h4 h5
    · simp only [Outcome.running.injEq] at hs
      subst hs
      rw [modeExclusive_iff]
      simp
    · simp only [Outcome.running.injEq] at hs
      subst hs
      exact h
    · simp only [Outcome.running.injEq] at hs
      subst hs
      obtain ⟨e1, e2, e3, e4⟩ := handleSearchInput_flags T key ch s
      rw [modeExclusive_iff] at h ⊢
      rw [e1, e2, e3]
      simp only [h3] at h
      cases hx : (handleSearchInput T key ch s).isSearching
      · simp_all
      · simp_all
    · simp only [Outcome.running.injEq] at hs
      subst hs
      obtain ⟨e1, e2, e3, e4⟩ := handleJumpInput_flags key ch s
      rw [modeExclusive_iff] at h ⊢
      rw [e1, e2, e3]
      simp only [h4] at h
      cases hx : (handleJumpInput key ch s).isJumping
      · simp_all
      · simp_all
    · cases hc : handleChar ch s with
      | none => simp [hc] at hs
      | some s2 =>
        simp only [hc, Outcome.running.injEq] at hs
        subst hs
        have hB : s.isBossMode = false := by simpa using h2
        have hS : s.isSearching = false := by simpa using h3
        have hJ : s.isJumping = false := by simpa using h4
        exact advanceLog_modeExclusive _ _ _
          (handleEsc_modeExclusive key s2 (handleChar_flags ch s s2 hc hB hS hJ))

/-- C8: in every state reachable from startup by key, mouse, resize and other
events, at most one of `isSearching`, `isJumping`, `isHelpMode`, `isBossMode`
is set. -/
theorem mode_flags_exclusive (T : Tables) (s : State) (h : Reachable T s) :
    ModeExclusive s := by
  induction h with
  | init p file w => simp [ModeExclusive, initState]
  | step s s1 ev rnd _ hs ih => exact step_modeExclusive T s s1 ev rnd ih hs

theorem mode_flags_exclusive_witness :
    ModeExclusive
      { initState exampleTables none (some exampleBook) 80 with
        isSearching := true, searchQuery := [] } :=
  mode_flags_exclusive exampleTables _
    (Reachable.step (initState exampleTables none (some exampleBook) 80) _
      (Event.key Key.nokey 47) 0 (Reachable.init none (some exampleBook) 80) (by decide))

/-! ## Jump commit -/

theorem takeWhile_eq_self_of_all {α : Type} (p : α → Bool) (l : List α)
    (h : l.all p = true) : l.takeWhile p = l := by
  induction l with
  | nil => rfl
  | cons a l ih =>
    simp only [List.all_cons, Bool.and_eq_true] at h
    simp [List.takeWhile, h.1, ih h.2]

/-- On a buffer of decimal digits the scan yields the number it denotes when that
fits in a signed 64-bit integer, and leaves `target` at 0 otherwise. -/
theorem sscanfInt_digits (q : GoString) (h : q.all isDigit = true) :
    sscanfInt q = if digitsValue q < 2 ^ 63 then (digitsValue q : Int) else 0 := by
  cases q with
  | nil => simp [sscanfInt, parseInt64, digitsValue]
  | cons c t =>
    have hc : isDigit c = true := by
      simp only [List.all_cons, Bool.and_eq_true] at h
      exact h.1
    have hc48 : 48 ≤ c.val := by
      simp only [isDigit, Bool.and_eq_true, decide_eq_true_eq] at hc
      exact hc.1
    have h43 : c ≠ byte 43 := by
      intro e; rw [e] at hc48; simp at hc48
    have h45 : c ≠ byte 45 := by
      intro e; rw [e] at hc48; simp at hc48
    have hall : (c :: t).all (fun c => isDigit c || c == byte 95) = true := by
      rw [List.all_eq_true] at h ⊢
      intro x hx
      simp [h x hx]
    have htw := takeWhile_eq_self_of_all _ _ hall
    simp only [sscanfInt, List.head?_cons, Option.some.injEq, h43, h45, or_self, if_false,
      List.length_nil, List.drop_zero, List.nil_append, htw, parseInt64, decide_False,
      reduceCtorEq, false_or, h, not_true_eq_false, Bool.false_eq_true]
    split_ifs <;> simp

/-- C9: in Jumping mode with a buffer of decimal digits denoting `v`, the confirm key
sets the current line to `v - 1` when `1 ≤ v ≤ len(lines)` and leaves it
unchanged otherwise (0, too large, empty buffer, or a value that does not fit
in an `int`); in every case all four mode flags are false afterwards. -/
theorem jump_commit (T : Tables) (s : State) (ch rnd : Nat)
    (hB : s.isBossMode = false) (hS : s.isSearching = false) (hH : s.isHelpMode = false)
    (hJ : s.isJumping = true) (hd : s.jumpQuery.all isDigit = true)
    (hn : s.lines.length < 2 ^ 63) :
    ∃ s1, step T s (Event.key Key.enter ch) rnd = Outcome.running s1 ∧
      s1.isSearching = false ∧ s1.isJumping = false ∧ s1.isHelpMode = false ∧
      s1.isBossMode = false ∧
      s1.currentLine =
        if 1 ≤ digitsValue s.jumpQuery ∧ digitsValue s.jumpQuery ≤ s.lines.length then
          (digitsValue s.jumpQuery : Int) - 1
        else s.currentLine := by
  have hscan := sscanfInt_digits s.jumpQuery hd
  by_cases hv : 1 ≤ digitsValue s.jumpQuery ∧ digitsValue s.jumpQuery ≤ s.lines.length
  · have hfit : digitsValue s.jumpQuery < 2 ^ 63 := by omega
    rw [if_pos hfit] at hscan
    have hc : sscanfInt s.jumpQuery > 0 ∧ sscanfInt s.jumpQuery ≤ (s.lines.length : Int) := by
      rw [hscan]; omega
    refine ⟨{ s with isJumping := false, currentLine := sscanfInt s.jumpQuery - 1 },
      ?_, hS, rfl, hH, hB, ?_⟩
    · simp [step, handleKey, hB, hS, hJ, handleJumpInput, hc]
    · simp only [if_pos hv, hscan]
  · have hc : ¬ (sscanfInt s.jumpQuery > 0 ∧ sscanfInt s.jumpQuery ≤ (s.lines.length : Int)) := by
      rw [hscan]
      split_ifs <;> omega
    refine ⟨{ s with isJumping := false }, ?_, hS, rfl, hH, hB, ?_⟩
    · simp [step, handleKey, hB, hS, hJ, handleJumpInput, hc]
    · simp only [if_neg hv]

theorem jump_commit_witness :
    ∃ s1, step exampleTables
        { initState exampleTables none (some tenLineBook) 80 with
          isJumping := true, jumpQuery := str "5" } (Event.key Key.enter 0) 0
          = Outcome.running s1 ∧
      s1.isSearching = false ∧ s1.isJumping = false ∧ s1.isHelpMode = false ∧
      s1.isBossMode = false ∧
      s1.currentLine = if 1 ≤ digitsValue (str "5") ∧ digitsValue (str "5") ≤ 10 then
          (digitsValue (str "5") : Int) - 1
        else 0 :=
  jump_commit exampleTables
    { initState exampleTables none (some tenLineBook) 80 with
      isJumping := true, jumpQuery := str "5" } 0 0 (by decide) (by decide) (by decide)
    (by decide) (by decide) (by decide)

/-- The three jump buffers of the specification against a ten-fragment document,
starting at line 2: "0" and "9999" leave the line at 2, "5" sets it to 4. -/
theorem jump_commit_examples :
    ((step exampleTables
        { initState exampleTables none (some tenLineBook) 80 with
          currentLine := 2, isJumping := true, jumpQuery := str "0" }
        (Event.key Key.enter 0) 0).state.map State.currentLine = some 2) ∧
    ((step exampleTables
        { initState exampleTables none (some tenLineBook) 80 with
          currentLine := 2, isJumping := true, jumpQuery := str "9999" }
        (Event.key Key.enter 0) 0).state.map State.currentLine = some 2) ∧
    ((step exampleTables
        { initState exampleTables none (some tenLineBook) 80 with
          currentLine := 2, isJumping := true, jumpQuery := str "5" }
        (Event.key Key.enter 0) 0).state.map State.currentLine = some 4) := by
  decide

/-! ## Search index -/

/-- Function `contains` is substring containment. -/
theorem contains_iff_substring (s sub : GoString) : contains s sub = true ↔ sub <:+: s := by
  induction s with
  | nil =>
    cases sub <;> simp [contains]
  | cons c s ih =>
    simp only [contains, Bool.or_eq_true, List.isPrefixOf_iff_prefix, ih]
    exact List.infix_cons_iff.symm

theorem updateSearchResultsLoop_mem (T : Tables) (query : GoString) (lines : List GoString) :
    ∀ (i : Int) (acc : List Int) (x : Int),
      x ∈ updateSearchResultsLoop T query lines i acc ↔
        x ∈ acc ∨ ∃ k : Nat, x = i + k ∧ ∃ line, lines.get? k = some line ∧
          contains (toLower T line) query = true := by
  induction lines with
  | nil => intro i acc x; simp [updateSearchResultsLoop]
  | cons l rest ih =>
    intro i acc x
    simp only [updateSearchResultsLoop]
    rw [ih]
    constructor
    · rintro (h | ⟨k, hk, line, hl, hc⟩)
      · split_ifs at h with hcl
        · rcases List.mem_append.mp h with h | h
          · exact Or.inl h
          · right
            refine ⟨0, ?_, l, by simp, hcl⟩
            have : x = i := by simpa using h
            simp [this]
        · exact Or.inl h
      · right
        exact ⟨k + 1, by rw [hk]; push_cast; ring, line, by simpa using hl, hc⟩
    · rintro (h | ⟨k, hk, line, hl, hc⟩)
      · left
        split_ifs
        · exact List.mem_append_left _ h
        · exact h
      · cases k with
        | zero =>
          left
          have hl2 : l = line := by simpa using hl
          rw [if_pos (by rw [hl2]; exact hc)]
          simp [hk]
        | succ k =>
          right
          exact ⟨k, by rw [hk]; push_cast; ring, line, by simpa using hl, hc⟩

theorem updateSearchResultsLoop_sorted (T : Tables) (query : GoString) (lines : List GoString) :
    ∀ (i : Int) (acc : List Int), acc.Pairwise (· < ·) → (∀ x ∈ acc, x < i) →
      (updateSearchResultsLoop T query lines i acc).Pairwise (· < ·) := by
  induction lines with
  | nil => intro i acc h _; simpa [updateSearchResultsLoop] using h
  | cons l rest ih =>
    intro i acc hs hlt
    simp only [updateSearchResultsLoop]
    apply ih
    · split_ifs
      · rw [List.pairwise_append]
        refine ⟨hs, by simp, ?_⟩
        intro a ha b hb
        have : b = i := by simpa using hb
        rw [this]; exact hlt a ha
      · exact hs
    · intro x hx
      split_ifs at hx
      · rcases List.mem_append.mp hx with h | h
        · have := hlt x h; omega
        · have : x = i := by simpa using h
          omega
      · have := hlt x hx; omega

/-- C10: `updateSearchResults` yields the strictly increasing list of exactly the
indices `k` whose lowercased fragment contains the lowercased query as a
substring; hence two queries with the same lowercase form (queries differing
only in letter case) give the same match set, and "boss", "BOSS" and "Boss"
against `["hello boss", "nothing", "BOSS mode"]` all give `[0, 2]`. -/
theorem updateSearchResults_spec (T : Tables) (query : GoString) (lines : List GoString) :
    (updateSearchResults T query lines).Pairwise (· < ·) ∧
    (∀ x : Int, x ∈ updateSearchResults T query lines ↔
      ∃ k : Nat, x = k ∧ ∃ line, lines.get? k = some line ∧
        toLower T query <:+: toLower T line) ∧
    (∀ query2 : GoString, toLower T query2 = toLower T query →
      updateSearchResults T query2 lines = updateSearchResults T query lines) ∧
    updateSearchResults T (str "boss") [str "hello boss", str "nothing", str "BOSS mode"]
      = [0, 2] ∧
    updateSearchResults T (str "BOSS") [str "hello boss", str "nothing", str "BOSS mode"]
      = [0, 2] ∧
    updateSearchResults T (str "Boss") [str "hello boss", str "nothing", str "BOSS mode"]
      = [0, 2] := by
  refine ⟨?_, ?_, ?_, ?_, ?_, ?_⟩
  · exact updateSearchResultsLoop_sorted T _ lines 0 [] List.Pairwise.nil (by simp)
  · intro x
    unfold updateSearchResults
    rw [updateSearchResultsLoop_mem]
    simp only [List.not_mem_nil, false_or, zero_add, contains_iff_substring]
  · intro query2 h
    unfold updateSearchResults
    rw [h]
  · rfl
  · rfl
  · rfl

/-! ## Case analysis of one pass through the loop -/

/-- The shapes a pass through the loop body can take when the loop keeps running. -/
theorem step_running_cases (T : Tables) (s s1 : State) (ev : Event) (rnd : Nat)
    (h : step T s ev rnd = Outcome.running s1) :
    (∃ file w, ev = Event.resize file w ∧
      s1 = advanceLog s.currentLine rnd { s with lines := loadAndWrapBook T file w }) ∨
    (∃ k, ev = Event.mouse k ∧ s1 = advanceLog s.currentLine rnd (handleMouse k s)) ∨
    (ev = Event.other ∧ s1 = s) ∨
    (∃ k ch, ev = Event.key k ch ∧
      ((k = Key.space ∧ s1 = { s with isBossMode := !s.isBossMode, isHelpMode := false,
                                      isSearching := false, isJumping := false }) ∨
       (s.isBossMode = true ∧ s1 = s) ∨
       (s.isBossMode = false ∧ s.isSearching = true ∧ s1 = handleSearchInput T k ch s) ∨
       (s.isBossMode = false ∧ s.isSearching = false ∧ s.isJumping = true ∧
          s1 = handleJumpInput k ch s) ∨
       (s.isBossMode = false ∧ s.isSearching = false ∧ s.isJumping = false ∧
          ∃ s2, handleChar ch s = some s2 ∧
            s1 = advanceLog s.currentLine rnd (handleEsc k s2)))) := by
  cases ev with
  | resize file w =>
    simp only [step, Outcome.running.injEq] at h
    exact Or.inl ⟨file, w, rfl, h.symm⟩
  | mouse k =>
    simp only [step, Outcome.running.injEq] at h
    exact Or.inr (Or.inl ⟨k, rfl, h.symm⟩)
  | other =>
    simp only [step, Outcome.running.injEq] at h
    exact Or.inr (Or.inr (Or.inl ⟨rfl, h.symm⟩))
  | key k ch =>
    refine Or.inr (Or.inr (Or.inr ⟨k, ch, rfl, ?_⟩))
    simp only [step, handleKey] at h
    split_ifs at h with h1 h2 h3 h4 h5
    · simp only [Outcome.running.injEq] at h
      exact Or.inl ⟨h1, h.symm⟩
    · simp only [Outcome.running.injEq] at h
      exact Or.inr (Or.inl ⟨h2, h.symm⟩)
    · simp only [Outcome.running.injEq] at h
      exact Or.inr (Or.inr (Or.inl ⟨by simpa using h2, h3, h.symm⟩))
    · simp only [Outcome.running.injEq] at h
      exact Or.inr (Or.inr (Or.inr (Or.inl ⟨by simpa using h2, by simpa using h3, h4, h.symm⟩)))
    · cases hc : handleChar ch s with
      | none => simp [hc] at h
      | some s2 =>
        simp only [hc, Outcome.running.injEq] at h
        exact Or.inr (Or.inr (Or.inr (Or.inr
          ⟨by simpa using h2, by simpa using h3, by simpa using h4, s2, rfl, h.symm⟩)))

/-- What the `n` and `N` cases can do. -/
theorem jumpMatch_cases (d : Int) (s s1 : State) (h : jumpMatch d s = some s1) :
    s1 = s ∨
    (s.searchActive = true ∧ s.searchResults.length > 0 ∧
      ∃ m line, sliceGet s.searchResults m = some line ∧
        s1 = { s with matchIndex := m, currentLine := line }) := by
  simp only [jumpMatch] at h
  split_ifs at h with h1 h2
  · split at h
    · exact absurd h (by simp)
    · rename_i line hl
      simp only [Option.some.injEq] at h
      exact Or.inr ⟨h1.1, h1.2, _, line, hl, h.symm⟩
  · split at h
    · exact absurd h (by simp)
    · rename_i line hl
      simp only [Option.some.injEq] at h
      exact Or.inr ⟨h1.1, h1.2, _, line, hl, h.symm⟩
  · simp only [Option.some.injEq] at h
    exact Or.inl h.symm

/-- What the character switch can do. -/
theorem handleChar_cases (ch : Nat) (s s1 : State) (h : handleChar ch s = some s1) :
    s1 = { s with isHelpMode := !s.isHelpMode } ∨
    (∃ c, s1 = { s with currentLine := c } ∧
      (c = s.currentLine ∨ (c = s.currentLine + 1 ∧ s.currentLine < (s.lines.length : Int) - 1) ∨
        (c = s.currentLine - 1 ∧ s.currentLine > 0))) ∨
    s1 = { s with isSearching := true, searchQuery := [], isHelpMode := false } ∨
    s1 = { s with isJumping := true, jumpQuery := [], isHelpMode := false } ∨
    (∃ d, jumpMatch d s = some s1) ∨
    (∃ v, s1 = { s with viewHeight := v } ∧
      (v = s.viewHeight ∨ (v = s.viewHeight + 1 ∧ s.viewHeight < 12) ∨
        (v = s.viewHeight - 1 ∧ s.viewHeight > 1))) := by
  unfold handleChar at h
  by_cases c0 : ch = 104 ∨ ch = 63
  · rw [if_pos c0] at h
    simp only [Option.some.injEq] at h
    exact Or.inl h.symm
  rw [if_neg c0] at h
  by_cases c1 : ch = 106
  · rw [if_pos c1] at h
    simp only [Option.some.injEq] at h
    right; left
    split_ifs at h with hc
    · exact ⟨_, h.symm, Or.inr (Or.inl ⟨rfl, hc⟩)⟩
    · exact ⟨s.currentLine, h.symm, Or.inl rfl⟩
  rw [if_neg c1] at h
  by_cases c2 : ch = 107
  · rw [if_pos c2] at h
    simp only [Option.some.injEq] at h
    right; left
    split_ifs at h with hc
    · exact ⟨_, h.symm, Or.inr (Or.inr ⟨rfl, hc⟩)⟩
    · exact ⟨s.currentLine, h.symm, Or.inl rfl⟩
  rw [if_neg c2] at h
  by_cases c3 : ch = 47
  · rw [if_pos c3] at h
    simp only [Option.some.injEq] at h
    exact Or.inr (Or.inr (Or.inl h.symm))
  rw [if_neg c3] at h
  by_cases c4 : ch = 71
  · rw [if_pos c4] at h
    simp only [Option.some.injEq] at h
    exact Or.inr (Or.inr (Or.inr (Or.inl h.symm)))
  rw [if_neg c4] at h
  by_cases c5 : ch = 110
  · rw [if_pos c5] at h
    exact Or.inr (Or.inr (Or.inr (Or.inr (Or.inl ⟨_, h⟩))))
  rw [if_neg c5] at h
  by_cases c6 : ch = 78
  · rw [if_pos c6] at h
    exact Or.inr (Or.inr (Or.inr (Or.inr (Or.inl ⟨_, h⟩))))
  rw [if_neg c6] at h
  by_cases c7 : ch = 43 ∨ ch = 61
  · rw [if_pos c7] at h
    simp only [Option.some.injEq] at h
    refine Or.inr (Or.inr (Or.inr (Or.inr (Or.inr ?_))))
    split_ifs at h with hc
    · exact ⟨_, h.symm, Or.inr (Or.inl ⟨rfl, hc⟩)⟩
    · exact ⟨s.viewHeight, h.symm, Or.inl rfl⟩
  rw [if_neg c7] at h
  by_cases c8 : ch = 45 ∨ ch = 95
  · rw [if_pos c8] at h
    simp only [Option.some.injEq] at h
    refine Or.inr (Or.inr (Or.inr (Or.inr (Or.inr ?_))))
    split_ifs at h with hc
    · exact ⟨_, h.symm, Or.inr (Or.inr ⟨rfl, hc⟩)⟩
    · exact ⟨s.viewHeight, h.symm, Or.inl rfl⟩
  rw [if_neg c8] at h
  simp only [Option.some.injEq] at h
  exact Or.inr (Or.inl ⟨s.currentLine, h.symm, Or.inl rfl⟩)

/-- The tail of the loop body leaves everything but `logOffset` alone, and never
decreases it. -/
theorem advanceLog_cases (oldLine : Int) (rnd : Nat) (s : State) :
    advanceLog oldLine rnd s = s ∨
    advanceLog oldLine rnd s = { s with logOffset := s.logOffset + 1 } := by
  simp only [advanceLog]
  split_ifs
  · exact Or.inr rfl
  · exact Or.inl rfl
  · exact Or.inl rfl

/-- The mouse case writes only `currentLine`, moving it by at most one within bounds. -/
theorem handleMouse_cases (key : Key) (s : State) :
    ∃ c, handleMouse key s = { s with currentLine := c } ∧
      (c = s.currentLine ∨ (c = s.currentLine + 1 ∧ s.currentLine < (s.lines.length : Int) - 1) ∨
        (c = s.currentLine - 1 ∧ s.currentLine > 0)) := by
  cases key <;> simp only [handleMouse] <;> split_ifs <;>
    first
      | exact ⟨s.currentLine, rfl, Or.inl rfl⟩
      | exact ⟨_, rfl, Or.inr (Or.inl ⟨rfl, by assumption⟩)⟩
      | exact ⟨_, rfl, Or.inr (Or.inr ⟨rfl, by assumption⟩)⟩

/-- The escape test after the switch writes only mode flags and `searchActive`. -/
theorem handleEsc_cases (key : Key) (s : State) :
    handleEsc key s = s ∨
    handleEsc key s = { s with isHelpMode := false, isSearching := false, isJumping := false,
                               searchActive := false } := by
  simp only [handleEsc]
  split_ifs
  · exact Or.inr rfl
  · exact Or.inl rfl

/-- Function `handleJumpInput` writes only `isJumping`, `jumpQuery` and `currentLine`, and
a new current line is a valid index. -/
theorem handleJumpInput_cases (key : Key) (ch : Nat) (s : State) :
    ∃ j q c, handleJumpInput key ch s = { s with isJumping := j, jumpQuery := q, currentLine := c } ∧
      (c = s.currentLine ∨ (0 ≤ c ∧ c < (s.lines.length : Int))) := by
  simp only [handleJumpInput]
  split_ifs with h1 h2
  · exact ⟨_, _, _, rfl, Or.inr ⟨by omega, by omega⟩⟩
  · exact ⟨_, _, _, rfl, Or.inl rfl⟩
  · exact ⟨_, _, _, rfl, Or.inl rfl⟩
  · exact ⟨_, _, _, rfl, Or.inl rfl⟩
  · exact ⟨_, _, _, rfl, Or.inl rfl⟩
  · exact ⟨_, _, _, rfl, Or.inl rfl⟩
  · exact ⟨_, _, _, rfl, Or.inl rfl⟩

/-- The selection loop either stops at position `k` of the match list, setting the
cursor to `i + k` and the current line to the match there, or changes nothing. -/
theorem selectMatchLoop_cases (rs : List Int) (i : Int) (s : State) :
    selectMatchLoop rs i s = s ∨
    ∃ (k : Nat) (line : Int), rs.get? k = some line ∧
      selectMatchLoop rs i s = { s with matchIndex := i + k, currentLine := line } := by
  rcases selectMatchLoop_spec rs i s with ⟨k, h1, h2, _, _⟩ | ⟨_, h2⟩
  · exact Or.inr ⟨k, _, h2, h1⟩
  · exact Or.inl h2

/-- Function `handleSearchInput`: a commit that finds matches, a commit that finds
none, or an edit of the prompt that touches only `isSearching` and `searchQuery`. -/
theorem handleSearchInput_cases (T : Tables) (key : Key) (ch : Nat) (s : State) :
    (updateSearchResults T s.searchQuery s.lines ≠ [] ∧
      handleSearchInput T key ch s =
        selectMatchLoop (updateSearchResults T s.searchQuery s.lines) 0
          { s with isSearching := false, lastSearchQuery := s.searchQuery,
                   searchActive := true,
                   searchResults := updateSearchResults T s.searchQuery s.lines,
                   matchIndex := 0 }) ∨
    (updateSearchResults T s.searchQuery s.lines = [] ∧
      handleSearchInput T key ch s =
        { s with isSearching := false, lastSearchQuery := s.searchQuery, searchActive := true,
                 searchResults := [] }) ∨
    (∃ b q, handleSearchInput T key ch s = { s with isSearching := b, searchQuery := q }) := by
  simp only [handleSearchInput]
  split_ifs with h1 h2 h3
  · exact Or.inl ⟨List.length_pos.mp h3, rfl⟩
  · right; left
    have : updateSearchResults T s.searchQuery s.lines = [] := by
      cases h : updateSearchResults T s.searchQuery s.lines with
      | nil => rfl
      | cons a l => rw [h] at h3; simp at h3
    exact ⟨this, by rw [this]⟩
  all_goals exact Or.inr (Or.inr ⟨_, _, rfl⟩)

/-! ## Leaving the search prompt without committing -/

/-- C17: in Searching mode the confirm key with an empty buffer, and the escape key
with any buffer, clear `isSearching` and change nothing else: all four mode
flags are false afterwards and the current line, the last committed query,
the match set, the match cursor and `searchActive` are as before. -/
theorem search_prompt_rejected (T : Tables) (s : State) (ch rnd : Nat)
    (hB : s.isBossMode = false) (hS : s.isSearching = true) (hJ : s.isJumping = false)
    (hH : s.isHelpMode = false) :
    (s.searchQuery = [] →
      ∃ s1, step T s (Event.key Key.enter ch) rnd = Outcome.running s1 ∧
        s1.isSearching = false ∧ s1.isJumping = false ∧ s1.isHelpMode = false ∧
        s1.isBossMode = false ∧ s1.currentLine = s.currentLine ∧
        s1.lastSearchQuery = s.lastSearchQuery ∧ s1.searchResults = s.searchResults ∧
        s1.matchIndex = s.matchIndex ∧ s1.searchActive = s.searchActive) ∧
    (∃ s1, step T s (Event.key Key.esc ch) rnd = Outcome.running s1 ∧
        s1.isSearching = false ∧ s1.isJumping = false ∧ s1.isHelpMode = false ∧
        s1.isBossMode = false ∧ s1.currentLine = s.currentLine ∧
        s1.lastSearchQuery = s.lastSearchQuery ∧ s1.searchResults = s.searchResults ∧
        s1.matchIndex = s.matchIndex ∧ s1.searchActive = s.searchActive) := by
  constructor
  · intro hq
    refine ⟨{ s with isSearching := false }, ?_, rfl, hJ, hH, hB, rfl, rfl, rfl, rfl, rfl⟩
    simp [step, handleKey, hB, hS, handleSearchInput, hq]
  · refine ⟨{ s with isSearching := false }, ?_, rfl, hJ, hH, hB, rfl, rfl, rfl, rfl, rfl⟩
    simp [step, handleKey, hB, hS, handleSearchInput]

theorem search_prompt_rejected_witness :
    (∃ s1, step exampleTables
          { exampleState with currentLine := 1, isSearching := true, lastSearchQuery := str "x",
                              searchResults := [2], matchIndex := 0, searchActive := true }
          (Event.key Key.enter 0) 0 = Outcome.running s1 ∧
        s1.isSearching = false ∧ s1.isJumping = false ∧ s1.isHelpMode = false ∧
        s1.isBossMode = false ∧ s1.currentLine = 1 ∧
        s1.lastSearchQuery = str "x" ∧ s1.searchResults = [2] ∧
        s1.matchIndex = 0 ∧ s1.searchActive = true) :=
  (search_prompt_rejected exampleTables
      { exampleState with currentLine := 1, isSearching := true, lastSearchQuery := str "x",
                          searchResults := [2], matchIndex := 0, searchActive := true }
      0 0 (by decide) (by decide) (by decide) (by decide)).1 (by decide)

/-! ## The match cursor -/

theorem sliceGet_of_lt {α : Type} (xs : List α) (i : Int) (h0 : 0 ≤ i)
    (h1 : i < (xs.length : Int)) : ∃ x, sliceGet xs i = some x ∧ xs.get? i.toNat = some x := by
  have hlt : i.toNat < xs.length := (Int.toNat_lt h0).mpr h1
  refine ⟨xs.get ⟨i.toNat, hlt⟩, ?_, ?_⟩
  · simp only [sliceGet, if_pos h0]
    exact List.get?_eq_get hlt
  · exact List.get?_eq_get hlt

theorem sliceGet_some_bounds {α : Type} (xs : List α) (i : Int) (x : α)
    (h : sliceGet xs i = some x) : 0 ≤ i ∧ i < (xs.length : Int) := by
  simp only [sliceGet] at h
  split_ifs at h with h0
  obtain ⟨hlt, _⟩ := List.get?_eq_some.mp h
  exact ⟨h0, (Int.toNat_lt h0).mp hlt⟩

/-- With the cursor in range the `n` and `N` cases do not panic. -/
theorem jumpMatch_isSome (d : Int) (s : State) (h : CursorOk s) :
    ∃ s1, jumpMatch d s = some s1 := by
  simp only [jumpMatch]
  by_cases ha : s.searchActive = true ∧ s.searchResults.length > 0
  · rw [if_pos ha]
    have hne : s.searchResults ≠ [] := List.length_pos.mp ha.2
    obtain ⟨h0, h1⟩ := h hne
    have hpos : (0 : Int) < (s.searchResults.length : Int) := by omega
    have hm : ∀ a : Int, 0 ≤ a → 0 ≤ a.tmod (s.searchResults.length : Int) ∧
        a.tmod (s.searchResults.length : Int) < (s.searchResults.length : Int) := by
      intro a ha0
      rw [Int.tmod_eq_emod ha0 (by omega)]
      exact ⟨Int.emod_nonneg _ (by omega), Int.emod_lt_of_pos _ hpos⟩
    split_ifs
    · obtain ⟨b0, b1⟩ := hm (s.matchIndex + 1) (by omega)
      obtain ⟨x, hx, _⟩ := sliceGet_of_lt s.searchResults _ b0 b1
      rw [hx]
      exact ⟨_, rfl⟩
    · obtain ⟨b0, b1⟩ := hm (s.matchIndex - 1 + (s.searchResults.length : Int)) (by omega)
      obtain ⟨x, hx, _⟩ := sliceGet_of_lt s.searchResults _ b0 b1
      rw [hx]
      exact ⟨_, rfl⟩
  · rw [if_neg ha]
    exact ⟨s, rfl⟩

theorem jumpMatch_cursorOk (d : Int) (s s1 : State) (h : jumpMatch d s = some s1) (hc : CursorOk s) :
    CursorOk s1 := by
  rcases jumpMatch_cases d s s1 h with rfl | ⟨_, _, m, line, hl, rfl⟩
  · exact hc
  · intro _
    exact sliceGet_some_bounds _ _ _ hl

theorem handleSearchInput_cursorOk (T : Tables) (key : Key) (ch : Nat) (s : State)
    (hc : CursorOk s) : CursorOk (handleSearchInput T key ch s) := by
  rcases handleSearchInput_cases T key ch s with ⟨hne, e⟩ | ⟨_, e⟩ | ⟨b, q, e⟩
  · rw [e]
    rcases selectMatchLoop_cases (updateSearchResults T s.searchQuery s.lines) 0
      { s with isSearching := false, lastSearchQuery := s.searchQuery, searchActive := true,
               searchResults := updateSearchResults T s.searchQuery s.lines,
               matchIndex := 0 } with e2 | ⟨k, line, hk, e2⟩
    · rw [e2]
      intro _
      have : 0 < (updateSearchResults T s.searchQuery s.lines).length := List.length_pos.mpr hne
      simp only []
      omega
    · rw [e2]
      intro _
      obtain ⟨hlt, _⟩ := List.get?_eq_some.mp hk
      simp only []
      omega
  · rw [e]
    intro hn
    exact absurd rfl hn
  · rw [e]
    exact hc

theorem step_cursorOk (T : Tables) (s s1 : State) (ev : Event) (rnd : Nat)
    (hc : CursorOk s) (h : step T s ev rnd = Outcome.running s1) : CursorOk s1 := by
  rcases step_running_cases T s s1 ev rnd h with ⟨file, w, _, e⟩ | ⟨k, _, e⟩ | ⟨_, e⟩ |
    ⟨k, ch, _, ⟨_, e⟩ | ⟨_, e⟩ | ⟨_, _, e⟩ | ⟨_, _, _, e⟩ | ⟨_, _, _, s2, h2, e⟩⟩
  · rcases advanceLog_cases s.currentLine rnd { s with lines := loadAndWrapBook T file w }
      with e2 | e2 <;> rw [e, e2] <;> exact hc
  · obtain ⟨c, e1, _⟩ := handleMouse_cases k s
    rcases advanceLog_cases s.currentLine rnd (handleMouse k s) with e2 | e2 <;>
      rw [e, e2, e1] <;> exact hc
  · rw [e]; exact hc
  · rw [e]; exact hc
  · rw [e]; exact hc
  · rw [e]; exact handleSearchInput_cursorOk T k ch s hc
  · obtain ⟨j, q, c, e1, _⟩ := handleJumpInput_cases k ch s
    rw [e, e1]; exact hc
  · have hc2 : CursorOk s2 := by
      rcases handleChar_cases ch s s2 h2 with rfl | ⟨c, rfl, _⟩ | rfl | rfl | ⟨d, hd⟩ |
        ⟨v, rfl, _⟩
      · exact hc
      · exact hc
      · exact hc
      · exact hc
      · exact jumpMatch_cursorOk d s s2 hd hc
      · exact hc
    have hc3 : CursorOk (handleEsc k s2) := by
      rcases handleEsc_cases k s2 with e3 | e3 <;> rw [e3] <;> exact hc2
    rcases advanceLog_cases s.currentLine rnd (handleEsc k s2) with e2 | e2 <;>
      rw [e, e2] <;> exact hc3

theorem reachable_cursorOk (T : Tables) (s : State) (h : Reachable T s) : CursorOk s := by
  induction h with
  | init p file w => intro hn; exact absurd rfl hn
  | step s s1 ev rnd _ hs ih => exact step_cursorOk T s s1 ev rnd ih hs

/-- With the cursor in range the character switch does not panic. -/
theorem handleChar_isSome (ch : Nat) (s : State) (hc : CursorOk s) :
    ∃ s2, handleChar ch s = some s2 := by
  unfold handleChar
  by_cases c0 : ch = 104 ∨ ch = 63
  · rw [if_pos c0]
    exact ⟨_, rfl⟩
  rw [if_neg c0]
  by_cases c1 : ch = 106
  · rw [if_pos c1]
    exact ⟨_, rfl⟩
  rw [if_neg c1]
  by_cases c2 : ch = 107
  · rw [if_pos c2]
    exact ⟨_, rfl⟩
  rw [if_neg c2]
  by_cases c3 : ch = 47
  · rw [if_pos c3]
    exact ⟨_, rfl⟩
  rw [if_neg c3]
  by_cases c4 : ch = 71
  · rw [if_pos c4]
    exact ⟨_, rfl⟩
  rw [if_neg c4]
  by_cases c5 : ch = 110
  · rw [if_pos c5]
    exact jumpMatch_isSome _ s hc
  rw [if_neg c5]
  by_cases c6 : ch = 78
  · rw [if_pos c6]
    exact jumpMatch_isSome _ s hc
  rw [if_neg c6]
  by_cases c7 : ch = 43 ∨ ch = 61
  · rw [if_pos c7]
    exact ⟨_, rfl⟩
  rw [if_neg c7]
  by_cases c8 : ch = 45 ∨ ch = 95
  · rw [if_pos c8]
    exact ⟨_, rfl⟩
  rw [if_neg c8]
  exact ⟨_, rfl⟩

/-- With the cursor in range no pass through the loop body panics. -/
theorem step_ne_panicked (T : Tables) (s : State) (ev : Event) (rnd : Nat) (hc : CursorOk s) :
    step T s ev rnd ≠ Outcome.panicked := by
  cases ev with
  | resize file w => simp [step]
  | mouse k => simp [step]
  | other => simp [step]
  | key k ch =>
    obtain ⟨s2, h2⟩ := handleChar_isSome ch s hc
    simp only [step, handleKey, h2]
    split_ifs <;> simp

/-- C20: in every reachable state, if the match set is non-empty then
`0 ≤ matchIndex < len(searchResults)`, and therefore no event makes the lookup
`searchResults[matchIndex]` of the `n` and `N` keys panic. -/
theorem match_cursor_in_range (T : Tables) (s : State) (h : Reachable T s) :
    (s.searchResults ≠ [] →
      0 ≤ s.matchIndex ∧ s.matchIndex < (s.searchResults.length : Int)) ∧
    ∀ (ev : Event) (rnd : Nat), step T s ev rnd ≠ Outcome.panicked :=
  ⟨reachable_cursorOk T s h, fun ev rnd => step_ne_panicked T s ev rnd (reachable_cursorOk T s h)⟩

theorem match_cursor_in_range_witness :
    (({ exampleState with searchQuery := str "boss", lastSearchQuery := str "boss",
                          searchActive := true, searchResults := [0, 2],
                          matchIndex := 0 } : State).searchResults ≠ [] →
      (0 : Int) ≤ 0 ∧ (0 : Int) < 2) ∧
    ∀ (ev : Event) (rnd : Nat),
      step exampleTables
        { exampleState with searchQuery := str "boss", lastSearchQuery := str "boss",
                            searchActive := true, searchResults := [0, 2], matchIndex := 0 }
        ev rnd ≠ Outcome.panicked :=
  match_cursor_in_range exampleTables _
    (reachable_run exampleTables
      [(Event.key Key.nokey 47, 9), (Event.key Key.nokey 98, 9), (Event.key Key.nokey 111, 9),
       (Event.key Key.nokey 115, 9), (Event.key Key.nokey 115, 9), (Event.key Key.enter 0, 9)]
      exampleState _ (Reachable.init none (some exampleBook) 80) (by decide))

/-! ## Next and previous match -/

/-- The `n` key (`d = 1`) and the `N` key (`d = -1`) in a state where a committed
search has matches and the cursor is in range: the cursor moves cyclically and
the current line becomes the match under it. -/
theorem step_jumpMatch (T : Tables) (s : State) (rnd : Nat) (ch : Nat) (d : Int)
    (hch : (ch = 110 ∧ d = 1) ∨ (ch = 78 ∧ d = -1))
    (hB : s.isBossMode = false) (hS : s.isSearching = false) (hJ : s.isJumping = false)
    (hA : s.searchActive = true) (h0 : 0 ≤ s.matchIndex)
    (h1 : s.matchIndex < (s.searchResults.length : Int)) :
    ∃ line l, sliceGet s.searchResults ((s.matchIndex + d) % (s.searchResults.length : Int))
        = some line ∧
      step T s (Event.key Key.nokey ch) rnd = Outcome.running
        { s with matchIndex := (s.matchIndex + d) % (s.searchResults.length : Int),
                 currentLine := line, logOffset := l } := by
  have hpos : (0 : Int) < (s.searchResults.length : Int) := by omega
  have hlen : s.searchResults.length > 0 := by omega
  have b0 := Int.emod_nonneg (s.matchIndex + d) (show (s.searchResults.length : Int) ≠ 0 by omega)
  have b1 := Int.emod_lt_of_pos (s.matchIndex + d) hpos
  obtain ⟨line, hl, _⟩ := sliceGet_of_lt s.searchResults _ b0 b1
  have hjm : jumpMatch d s = some
      { s with matchIndex := (s.matchIndex + d) % (s.searchResults.length : Int),
               currentLine := line } := by
    rcases hch with ⟨_, rfl⟩ | ⟨_, rfl⟩
    · have e : (s.matchIndex + 1).tmod (s.searchResults.length : Int)
          = (s.matchIndex + 1) % (s.searchResults.length : Int) :=
        Int.tmod_eq_emod (by omega) (by omega)
      simp only [jumpMatch, hA, hlen, and_self, if_true, e, hl]
    · have e : (s.matchIndex - 1 + (s.searchResults.length : Int)).tmod
            (s.searchResults.length : Int)
          = (s.matchIndex + -1) % (s.searchResults.length : Int) := by
        rw [Int.tmod_eq_emod (by omega) (by omega), Int.add_emod_self]
        rfl
      have hd : ¬ ((-1 : Int) = 1) := by decide
      simp only [jumpMatch, hA, hlen, and_self, if_true, hd, if_false, e, hl]
  have hhc : handleChar ch s = jumpMatch d s := by
    rcases hch with ⟨rfl, rfl⟩ | ⟨rfl, rfl⟩ <;> simp [handleChar]
  have hstep : step T s (Event.key Key.nokey ch) rnd = Outcome.running
      (advanceLog s.currentLine rnd
        { s with matchIndex := (s.matchIndex + d) % (s.searchResults.length : Int),
                 currentLine := line }) := by
    have hq : ch ≠ 81 := by rcases hch with ⟨rfl, _⟩ | ⟨rfl, _⟩ <;> decide
    simp [step, handleKey, hB, hS, hJ, hq, hhc, hjm, handleEsc]
  rcases advanceLog_cases s.currentLine rnd
      { s with matchIndex := (s.matchIndex + d) % (s.searchResults.length : Int),
               currentLine := line } with e | e
  · exact ⟨line, s.logOffset, hl, by rw [hstep, e]⟩
  · exact ⟨line, s.logOffset + 1, hl, by rw [hstep, e]⟩

/-- Pressing `n` once per element of `rnds` advances the cursor by the number of
presses, cyclically, and keeps the committed search as it is. -/
theorem run_next_match (T : Tables) (rnds : List Nat) : ∀ (s : State),
    s.isBossMode = false → s.isSearching = false → s.isJumping = false →
    s.searchActive = true → 0 ≤ s.matchIndex →
    s.matchIndex < (s.searchResults.length : Int) →
    ∃ s1, run T (Outcome.running s) (rnds.map (fun r => (Event.key Key.nokey 110, r)))
        = Outcome.running s1 ∧
      s1.matchIndex = (s.matchIndex + (rnds.length : Int)) % (s.searchResults.length : Int) ∧
      s1.searchResults = s.searchResults := by
  induction rnds with
  | nil =>
    intro s _ _ _ _ h0 h1
    refine ⟨s, rfl, ?_, rfl⟩
    simp only [List.length_nil, Nat.cast_zero, add_zero]
    exact (Int.emod_eq_of_lt h0 h1).symm
  | cons r rnds ih =>
    intro s hB hS hJ hA h0 h1
    obtain ⟨line, l, _, hstep⟩ :=
      step_jumpMatch T s r 110 1 (Or.inl ⟨rfl, rfl⟩) hB hS hJ hA h0 h1
    have hpos : (0 : Int) < (s.searchResults.length : Int) := by omega
    obtain ⟨s1, hrun, hm, hr⟩ := ih
      { s with matchIndex := (s.matchIndex + 1) % (s.searchResults.length : Int),
               currentLine := line, logOffset := l }
      hB hS hJ hA (Int.emod_nonneg _ (by omega)) (Int.emod_lt_of_pos _ hpos)
    refine ⟨s1, ?_, ?_, hr⟩
    · simp only [List.map_cons, run, hstep]
      exact hrun
    · rw [hm]
      simp only [List.length_cons, Nat.cast_add, Nat.cast_one]
      rw [Int.emod_add_emod]
      congr 1
      ring

/-- C14: in Normal mode (or with the help overlay open) with a committed search whose
match set has `k ≥ 1` entries and a cursor `c < k`, the key `n` sets the cursor
to `(c+1) mod k` and the key `N` to `(c-1) mod k`, each setting the current
line to the match at the new cursor; `N` after `n` restores the cursor, and `k`
presses of `n` restore it. When no search is committed or the match set is
empty both keys leave the whole state unchanged. -/
theorem match_navigation (T : Tables) (s : State)
    (hB : s.isBossMode = false) (hS : s.isSearching = false) (hJ : s.isJumping = false) :
    (s.searchActive = true → ∀ c k : Nat, s.searchResults.length = k → s.matchIndex = c →
      c < k →
      (∀ rnd, ∃ s1 line, step T s (Event.key Key.nokey 110) rnd = Outcome.running s1 ∧
        s1.matchIndex = ((c : Int) + 1) % k ∧
        sliceGet s.searchResults (((c : Int) + 1) % k) = some line ∧ s1.currentLine = line) ∧
      (∀ rnd, ∃ s1 line, step T s (Event.key Key.nokey 78) rnd = Outcome.running s1 ∧
        s1.matchIndex = ((c : Int) - 1) % k ∧
        sliceGet s.searchResults (((c : Int) - 1) % k) = some line ∧ s1.currentLine = line) ∧
      (∀ rnd rnd2, ∃ s1 s2 line, step T s (Event.key Key.nokey 110) rnd = Outcome.running s1 ∧
        step T s1 (Event.key Key.nokey 78) rnd2 = Outcome.running s2 ∧
        s2.matchIndex = c ∧ sliceGet s.searchResults c = some line ∧ s2.currentLine = line) ∧
      (∀ rnds : List Nat, rnds.length = k →
        ∃ s1, run T (Outcome.running s) (rnds.map (fun r => (Event.key Key.nokey 110, r)))
            = Outcome.running s1 ∧ s1.matchIndex = c)) ∧
    ((s.searchActive = false ∨ s.searchResults = []) → ∀ rnd,
      step T s (Event.key Key.nokey 110) rnd = Outcome.running s ∧
      step T s (Event.key Key.nokey 78) rnd = Outcome.running s) := by
  constructor
  · intro hA c k hk hc hck
    have h0 : 0 ≤ s.matchIndex := by omega
    have h1 : s.matchIndex < (s.searchResults.length : Int) := by omega
    have hkpos : (0 : Int) < (k : Int) := by omega
    refine ⟨?_, ?_, ?_, ?_⟩
    · intro rnd
      obtain ⟨line, l, hl, hstep⟩ :=
        step_jumpMatch T s rnd 110 1 (Or.inl ⟨rfl, rfl⟩) hB hS hJ hA h0 h1
      rw [hk, hc] at hl
      exact ⟨_, line, hstep, by simp only [hk, hc], hl, rfl⟩
    · intro rnd
      obtain ⟨line, l, hl, hstep⟩ :=
        step_jumpMatch T s rnd 78 (-1) (Or.inr ⟨rfl, rfl⟩) hB hS hJ hA h0 h1
      rw [hk, hc] at hl
      exact ⟨_, line, hstep, by simp only [hk, hc]; rfl, hl, rfl⟩
    · intro rnd rnd2
      obtain ⟨line, l, hl, hstep⟩ :=
        step_jumpMatch T s rnd 110 1 (Or.inl ⟨rfl, rfl⟩) hB hS hJ hA h0 h1
      have hpos : (0 : Int) < (s.searchResults.length : Int) := by omega
      obtain ⟨line2, l2, hl2, hstep2⟩ :=
        step_jumpMatch T
          { s with matchIndex := (s.matchIndex + 1) % (s.searchResults.length : Int),
                   currentLine := line, logOffset := l }
          rnd2 78 (-1) (Or.inr ⟨rfl, rfl⟩) hB hS hJ hA
          (Int.emod_nonneg _ (by omega)) (Int.emod_lt_of_pos _ hpos)
      have hback : ((s.matchIndex + 1) % (s.searchResults.length : Int) + -1)
          % (s.searchResults.length : Int) = c := by
        rw [Int.emod_add_emod, hc, hk]
        have : (c : Int) + 1 + -1 = c := by ring
        rw [this]
        exact Int.emod_eq_of_lt (by omega) (by omega)
      simp only [hback] at hl2 hstep2
      exact ⟨_, _, line2, hstep, hstep2, rfl, hl2, rfl⟩
    · intro rnds hlen
      obtain ⟨s1, hrun, hm, _⟩ := run_next_match T rnds s hB hS hJ hA h0 h1
      refine ⟨s1, hrun, ?_⟩
      rw [hm, hlen, hk, hc, Int.add_emod_self]
      exact Int.emod_eq_of_lt (by omega) (by omega)
  · intro hno rnd
    have hjm : ∀ d, jumpMatch d s = some s := by
      intro d
      have : ¬ (s.searchActive = true ∧ s.searchResults.length > 0) := by
        rcases hno with h | h
        · simp [h]
        · simp [h]
      simp only [jumpMatch, this, if_false]
    constructor
    · simp [step, handleKey, hB, hS, hJ, handleChar, hjm, handleEsc, advanceLog]
    · simp [step, handleKey, hB, hS, hJ, handleChar, hjm, handleEsc, advanceLog]

theorem match_navigation_witness :
    ∃ s1 line, step exampleTables
        { exampleState with currentLine := 2, lastSearchQuery := str "boss",
                            searchActive := true, searchResults := [0, 2], matchIndex := 1 }
        (Event.key Key.nokey 110) 0 = Outcome.running s1 ∧
      s1.matchIndex = (((1 : Nat) : Int) + 1) % ((2 : Nat) : Int) ∧
      sliceGet [(0 : Int), 2] ((((1 : Nat) : Int) + 1) % ((2 : Nat) : Int)) = some line ∧
      s1.currentLine = line :=
  ((match_navigation exampleTables
      { exampleState with currentLine := 2, lastSearchQuery := str "boss",
                          searchActive := true, searchResults := [0, 2], matchIndex := 1 }
      (by decide) (by decide) (by decide)).1 (by decide) 1 2 (by decide) (by decide)
      (by decide)).1 0

/-! ## Freshness of the match set -/

theorem updateSearchResults_valid (T : Tables) (q : GoString) (lines : List GoString) :
    ∀ x ∈ updateSearchResults T q lines, validMatch T lines q x = true := by
  intro x hx
  unfold updateSearchResults at hx
  rw [updateSearchResultsLoop_mem] at hx
  rcases hx with hx | ⟨k, hk, line, hl, hc⟩
  · simp at hx
  · have hs : sliceGet lines x = some line := by
      rw [hk]
      simp only [sliceGet, zero_add, Int.toNat_ofNat]
      rw [if_pos (by omega)]
      exact hl
    simp only [validMatch, hs, hc]

theorem handleSearchInput_resultsValid (T : Tables) (key : Key) (ch : Nat) (s : State)
    (h : ResultsValid T s) : ResultsValid T (handleSearchInput T key ch s) := by
  rcases handleSearchInput_cases T key ch s with ⟨_, e⟩ | ⟨_, e⟩ | ⟨b, q, e⟩
  · rw [e]
    rcases selectMatchLoop_cases (updateSearchResults T s.searchQuery s.lines) 0
      { s with isSearching := false, lastSearchQuery := s.searchQuery, searchActive := true,
               searchResults := updateSearchResults T s.searchQuery s.lines,
               matchIndex := 0 } with e2 | ⟨k, line, _, e2⟩ <;>
      rw [e2] <;> exact updateSearchResults_valid T s.searchQuery s.lines
  · rw [e]
    intro x hx
    simp at hx
  · rw [e]
    exact h

theorem step_resultsValid (T : Tables) (s s1 : State) (ev : Event) (rnd : Nat)
    (hv : ResultsValid T s) (hev : ∀ file w, ev ≠ Event.resize file w)
    (h : step T s ev rnd = Outcome.running s1) : ResultsValid T s1 := by
  rcases step_running_cases T s s1 ev rnd h with ⟨file, w, he, _⟩ | ⟨k, _, e⟩ | ⟨_, e⟩ |
    ⟨k, ch, _, ⟨_, e⟩ | ⟨_, e⟩ | ⟨_, _, e⟩ | ⟨_, _, _, e⟩ | ⟨_, _, _, s2, h2, e⟩⟩
  · exact absurd he (hev file w)
  · obtain ⟨c, e1, _⟩ := handleMouse_cases k s
    rcases advanceLog_cases s.currentLine rnd (handleMouse k s) with e2 | e2 <;>
      rw [e, e2, e1] <;> exact hv
  · rw [e]; exact hv
  · rw [e]; exact hv
  · rw [e]; exact hv
  · rw [e]; exact handleSearchInput_resultsValid T k ch s hv
  · obtain ⟨j, q, c, e1, _⟩ := handleJumpInput_cases k ch s
    rw [e, e1]; exact hv
  · have hc2 : ResultsValid T s2 := by
      rcases handleChar_cases ch s s2 h2 with rfl | ⟨c, rfl, _⟩ | rfl | rfl | ⟨d, hd⟩ |
        ⟨v, rfl, _⟩
      · exact hv
      · exact hv
      · exact hv
      · exact hv
      · rcases jumpMatch_cases d s s2 hd with rfl | ⟨_, _, m, line, _, rfl⟩
        · exact hv
        · exact hv
      · exact hv
    have hc3 : ResultsValid T (handleEsc k s2) := by
      rcases handleEsc_cases k s2 with e3 | e3 <;> rw [e3] <;> exact hc2
    rcases advanceLog_cases s.currentLine rnd (handleEsc k s2) with e2 | e2 <;>
      rw [e, e2] <;> exact hc3

/-- Where the match set is fresh: it is computed at every search commit and is not
touched by a resize. Every index in it is a valid index of the current
fragments whose fragment contains the last committed query case-insensitively
in the startup state, after every commit of a non-empty query, and after every
further event other than a resize; a resize rebuilds the fragments and leaves
the match set, the cursor and the committed query as they were. -/
theorem search_results_fresh (T : Tables) :
    (∀ p file w, ResultsValid T (initState T p file w)) ∧
    (∀ (s s1 : State) (ch rnd : Nat), s.isBossMode = false → s.isSearching = true →
      s.searchQuery ≠ [] → step T s (Event.key Key.enter ch) rnd = Outcome.running s1 →
      ResultsValid T s1) ∧
    (∀ (s s1 : State) (ev : Event) (rnd : Nat), ResultsValid T s →
      (∀ file w, ev ≠ Event.resize file w) → step T s ev rnd = Outcome.running s1 →
      ResultsValid T s1) ∧
    (∀ (s s1 : State) (file : Option (List GoString)) (w : Int) (rnd : Nat),
      step T s (Event.resize file w) rnd = Outcome.running s1 →
      s1.lines = loadAndWrapBook T file w ∧ s1.searchResults = s.searchResults ∧
      s1.matchIndex = s.matchIndex ∧ s1.lastSearchQuery = s.lastSearchQuery) := by
  refine ⟨?_, ?_, ?_, ?_⟩
  · intro p file w x hx
    simp [initState] at hx
  · intro s s1 ch rnd hB hS hq h
    have hs : s1 = handleSearchInput T Key.enter ch s := by
      simp only [step, handleKey, hB, hS] at h
      simpa using h.symm
    rw [hs]
    have hcommit : handleSearchInput T Key.enter ch s =
        (if (updateSearchResults T s.searchQuery s.lines).length > 0 then
          selectMatchLoop (updateSearchResults T s.searchQuery s.lines) 0
            { s with isSearching := false, lastSearchQuery := s.searchQuery,
                     searchActive := true,
                     searchResults := updateSearchResults T s.searchQuery s.lines,
                     matchIndex := 0 }
        else
          { s with isSearching := false, lastSearchQuery := s.searchQuery,
                   searchActive := true,
                   searchResults := updateSearchResults T s.searchQuery s.lines }) := by
      simp [handleSearchInput, hq]
    rw [hcommit]
    split_ifs
    · rcases selectMatchLoop_cases (updateSearchResults T s.searchQuery s.lines) 0
        { s with isSearching := false, lastSearchQuery := s.searchQuery, searchActive := true,
                 searchResults := updateSearchResults T s.searchQuery s.lines,
                 matchIndex := 0 } with e2 | ⟨k, line, _, e2⟩ <;>
        rw [e2] <;> exact updateSearchResults_valid T s.searchQuery s.lines
    · exact updateSearchResults_valid T s.searchQuery s.lines
  · intro s s1 ev rnd hv hev h
    exact step_resultsValid T s s1 ev rnd hv hev h
  · intro s s1 file w rnd h
    simp only [step, Outcome.running.injEq] at h
    rcases advanceLog_cases s.currentLine rnd { s with lines := loadAndWrapBook T file w }
      with e2 | e2 <;> rw [e2] at h <;> subst h <;> exact ⟨rfl, rfl, rfl, rfl⟩

/-- A resize right after the commit: on the one-line file "abcd" read at a width of 10
columns (fragments "ab", "cd") a search for "cd" gives the match set `[1]`;
after a resize event whose reload reads 12 columns the fragments are the single
"abcd" and the match set is still `[1]`, which is no valid index. -/
theorem search_results_stale_counterexample :
    ∃ s, Reachable exampleTables s ∧ s.lines = [str "abcd"] ∧ s.searchResults = [1] ∧
      ¬ ResultsValid exampleTables s :=
  ⟨{ initState exampleTables none (some [str "abcd"]) 12 with
      currentLine := 1, searchQuery := str "cd", lastSearchQuery := str "cd",
      searchActive := true, searchResults := [1], matchIndex := 0 },
    reachable_run exampleTables
      [(Event.key Key.nokey 47, 9), (Event.key Key.nokey 99, 9), (Event.key Key.nokey 100, 9),
       (Event.key Key.enter 0, 9), (Event.resize (some [str "abcd"]) 12, 9)]
      (initState exampleTables none (some [str "abcd"]) 10) _
      (Reachable.init none (some [str "abcd"]) 10) (by decide),
    by decide, by decide, by decide⟩

/-- C15 (the code breaks it): a resize rebuilds the fragments and leaves the match set
of the last commit in place. On the one-line file "abcd" read at a width of 10
columns (fragments "ab", "cd") a search for "cd" gives the match set `[1]`; the
key `k` moves back to line 0; a resize event whose reload still reads 10
columns and a second one whose reload reads 12 columns leave the single
fragment "abcd", the current line 0 and the match set `[1]`, which is no index
of a fragment; the key `n` then loads that index into the current line. -/
theorem resize_keeps_stale_matches :
    ∃ s s2, Reachable exampleTables s ∧ s.lines = [str "abcd"] ∧ s.currentLine = 0 ∧
      s.lastSearchQuery = str "cd" ∧ s.searchResults = [1] ∧
      ¬ ResultsValid exampleTables s ∧
      step exampleTables s (Event.key Key.nokey 110) 9 = Outcome.running s2 ∧
      s2.lines = [str "abcd"] ∧ s2.currentLine = 1 ∧
      ¬ (s2.currentLine < (s2.lines.length : Int)) :=
  ⟨{ initState exampleTables none (some [str "abcd"]) 12 with
      searchQuery := str "cd", lastSearchQuery := str "cd",
      searchActive := true, searchResults := [1], matchIndex := 0 },
   { initState exampleTables none (some [str "abcd"]) 12 with
      currentLine := 1, searchQuery := str "cd", lastSearchQuery := str "cd",
      searchActive := true, searchResults := [1], matchIndex := 0 },
    reachable_run exampleTables
      [(Event.key Key.nokey 47, 9), (Event.key Key.nokey 99, 9), (Event.key Key.nokey 100, 9),
       (Event.key Key.enter 0, 9), (Event.key Key.nokey 107, 9),
       (Event.resize (some [str "abcd"]) 10, 9), (Event.resize (some [str "abcd"]) 12, 9)]
      (initState exampleTables none (some [str "abcd"]) 10) _
      (Reachable.init none (some [str "abcd"]) 10) (by decide),
    by decide, by decide, by decide, by decide, by decide, by decide, by decide, by decide,
    by decide⟩

/-! ## Degenerate widths -/

/-- When every rune is wider than what `maxW` leaves, each rune closes the builder
before it: the loop emits the builder it started with and then one fragment
per rune. -/
theorem foldl_wrapRune_degenerate (T : Tables) (maxW : Int) (rs : List Nat) :
    ∀ (acc : List GoString) (b : GoString) (w : Int), 0 ≤ w →
      (∀ r ∈ rs, maxW < (T.runeWidth r : Int)) →
      (rs.foldl (wrapRune T maxW) ⟨acc, b, w⟩).allLines ++
          [(rs.foldl (wrapRune T maxW) ⟨acc, b, w⟩).b]
        = acc ++ [b] ++ rs.map encodeRune := by
  induction rs with
  | nil => intro acc b w _ _; simp
  | cons r rs ih =>
    intro acc b w hw hr
    have hgt : w + (T.runeWidth r : Int) > maxW := by
      have := hr r (List.mem_cons_self _ _)
      omega
    simp only [List.foldl_cons, wrapRune, if_pos hgt]
    rw [ih _ _ _ (by omega) (fun x hx => hr x (List.mem_cons_of_mem _ hx))]
    simp

/-- C11 (as amended): for every `maxWidth ≤ 0` and every raw line whose trimmed text
is non-empty and has no rune of width at most `maxWidth` (so: any line when
`maxWidth < 0`, a line without zero-width runes when `maxWidth = 0`), reflow
produces an empty fragment followed by one fragment per character, the k-th of
these being the k-th character of the trimmed line: `n + 1` fragments for `n`
characters. -/
theorem reflowLine_degenerate (T : Tables) (maxW : Int) (raw : GoString) (hmax : maxW ≤ 0)
    (hne : trimSpace raw ≠ [])
    (hw : ∀ r ∈ decodeRunes (trimSpace raw), maxW < (T.runeWidth r : Int)) :
    reflowLine T maxW raw = [] :: (decodeRunes (trimSpace raw)).map encodeRune ∧
    (reflowLine T maxW raw).length = (decodeRunes (trimSpace raw)).length + 1 := by
  have h : reflowLine T maxW raw = [] :: (decodeRunes (trimSpace raw)).map encodeRune := by
    simp only [reflowLine, wrapLine, if_neg hne]
    rw [foldl_wrapRune_degenerate T maxW _ [] [] 0 (le_refl 0) hw]
    simp
  have _ := hmax
  exact ⟨h, by rw [h]; simp⟩

theorem reflowLine_degenerate_witness :
    reflowLine exampleTables 0 (str " abc ")
        = [] :: (decodeRunes (trimSpace (str " abc "))).map encodeRune ∧
      (reflowLine exampleTables 0 (str " abc ")).length
        = (decodeRunes (trimSpace (str " abc "))).length + 1 :=
  reflowLine_degenerate exampleTables 0 (str " abc ") (by decide) (by decide) (by decide)

/-- C11 (as stated) fails: at `maxWidth = 0` the line "abc" (3 characters) yields the
four fragments `""`, `"a"`, `"b"`, `"c"`. -/
theorem reflowLine_degenerate_counterexample :
    (decodeRunes (trimSpace (str "abc"))).length = 3 ∧
      reflowLine exampleTables 0 (str "abc") = [[], str "a", str "b", str "c"] ∧
      (reflowLine exampleTables 0 (str "abc")).length ≠ 3 := by
  decide

/-! ## Greedy wrapping -/

theorem encodeRunes_ne_nil (rs : List Nat) (h : rs ≠ []) : encodeRunes rs ≠ [] := by
  cases rs with
  | nil => exact absurd rfl h
  | cons r rs =>
    simp only [encodeRunes, List.flatMap_cons]
    intro he
    exact encodeRune_ne_nil r (List.append_eq_nil.mp he).1

theorem displayWidth_encodeRunes (T : Tables) (rs : List Nat) (h : ∀ r ∈ rs, ValidRune r) :
    displayWidth T (encodeRunes rs) = widthSum T rs := by
  rw [displayWidth, decodeRunes_encodeRunes rs h, widthSum]

theorem wrapRune_greedy (T : Tables) (maxW : Int) (st : WrapState) (r : Nat)
    (hmax : 2 ≤ maxW) (hinv : GreedyInv T maxW st) (hr : ValidRune r)
    (hw : T.runeWidth r ≤ 2) :
    GreedyInv T maxW (wrapRune T maxW st r) ∧ (wrapRune T maxW st r).b ≠ [] := by
  obtain ⟨chunks, bs, hall, hb, hc, hne, hval, hbv, hch⟩ := hinv
  have hbne : (wrapRune T maxW st r).b ≠ [] := by
    simp only [wrapRune]
    intro he
    exact encodeRune_ne_nil r (List.append_eq_nil.mp he).2
  refine ⟨?_, hbne⟩
  by_cases hgt : st.currW + (T.runeWidth r : Int) > maxW
  · have hbs : bs ≠ [] := by
      intro he
      rw [he] at hc
      simp only [widthSum, List.map_nil, List.sum_nil, Nat.cast_zero] at hc
      omega
    refine ⟨chunks ++ [bs], [r], ?_, ?_, ?_, ?_, ?_, ?_, ?_⟩
    · simp [wrapRune, hgt, hall, hb]
    · simp [wrapRune, hgt, encodeRunes]
    · simp [wrapRune, hgt, widthSum]
    · intro c hcm
      rcases List.mem_append.mp hcm with h | h
      · exact hne c h
      · have : c = bs := by simpa using h
        rw [this]; exact hbs
    · intro c hcm
      rcases List.mem_append.mp hcm with h | h
      · exact hval c h
      · have : c = bs := by simpa using h
        rw [this]; exact hbv
    · intro x hx
      have : x = r := by simpa using hx
      rw [this]; exact hr
    · rw [List.chain'_append]
      refine ⟨hch, List.chain'_singleton _, ?_⟩
      intro x hx y hy
      have hxb : bs = x := by simpa [List.getLast?_append] using hx
      have hyr : [r] = y := by simpa using hy
      rw [← hxb, ← hyr]
      exact ⟨r, [], rfl, by rw [← hc]; exact hgt⟩
  · refine ⟨chunks, bs ++ [r], ?_, ?_, ?_, hne, hval, ?_, ?_⟩
    · simp [wrapRune, hgt, hall]
    · simp [wrapRune, hgt, hb, encodeRunes]
    · have e : (wrapRune T maxW st r).currW = st.currW + (T.runeWidth r : Int) := by
        simp only [wrapRune, if_neg hgt]
      rw [e, hc]
      simp [widthSum]
    · intro x hx
      rcases List.mem_append.mp hx with h | h
      · exact hbv x h
      · have : x = r := by simpa using h
        rw [this]; exact hr
    · rw [List.chain'_append] at hch ⊢
      obtain ⟨h1, _, h3⟩ := hch
      refine ⟨h1, List.chain'_singleton _, ?_⟩
      intro x hx y hy
      have hyr : bs ++ [r] = y := by simpa using hy
      obtain ⟨r0, rest, hbs, hlt⟩ := h3 x hx bs (by simp)
      rw [← hyr, hbs]
      exact ⟨r0, rest ++ [r], rfl, hlt⟩

theorem foldl_wrapRune_greedy (T : Tables) (maxW : Int) (hmax : 2 ≤ maxW) (rs : List Nat) :
    ∀ st : WrapState, GreedyInv T maxW st → (∀ r ∈ rs, ValidRune r) →
      (∀ r ∈ rs, T.runeWidth r ≤ 2) → (rs ≠ [] ∨ st.b ≠ []) →
      GreedyInv T maxW (rs.foldl (wrapRune T maxW) st) ∧
        (rs.foldl (wrapRune T maxW) st).b ≠ [] := by
  induction rs with
  | nil =>
    intro st h _ _ hne
    rcases hne with h1 | h1
    · exact absurd rfl h1
    · exact ⟨h, h1⟩
  | cons r rs ih =>
    intro st h hv hw _
    rw [List.foldl_cons]
    obtain ⟨h1, h2⟩ := wrapRune_greedy T maxW st r hmax h (hv r (List.mem_cons_self _ _))
      (hw r (List.mem_cons_self _ _))
    exact ih _ h1 (fun x hx => hv x (List.mem_cons_of_mem _ hx))
      (fun x hx => hw x (List.mem_cons_of_mem _ hx)) (Or.inr h2)

theorem chain_get? {α : Type} (R : α → α → Prop) : ∀ (l : List α) (i : Nat) (a b : α),
    List.Chain' R l → l.get? i = some a → l.get? (i + 1) = some b → R a b := by
  intro l
  induction l with
  | nil => intro i a b _ h; simp at h
  | cons x l ih =>
    intro i a b hc ha hb
    cases l with
    | nil => simp at hb
    | cons y l =>
      rw [List.chain'_cons] at hc
      cases i with
      | zero =>
        simp only [List.get?_cons_zero, Option.some.injEq] at ha
        simp only [zero_add, List.get?_cons_succ, List.get?_cons_zero, Option.some.injEq] at hb
        rw [← ha, ← hb]; exact hc.1
      | succ i =>
        exact ih i a b hc.2 (by simpa using ha) (by simpa using hb)

/-- C19: for `maxWidth ≥ 2`, a raw line whose trimmed text is non-empty and rune widths
of at most 2, every fragment produced for the line is non-empty, and for every
fragment `f` followed by a fragment `g`, the display width of `f` plus the
width of the first character of `g` is strictly greater than `maxWidth`. -/
theorem reflowLine_greedy (T : Tables) (maxW : Int) (raw : GoString) (hmax : 2 ≤ maxW)
    (hne : trimSpace raw ≠ [])
    (hw : ∀ r ∈ decodeRunes (trimSpace raw), T.runeWidth r ≤ 2) :
    (∀ f ∈ reflowLine T maxW raw, f ≠ []) ∧
    ∀ (i : Nat) (f g : GoString), (reflowLine T maxW raw).get? i = some f →
      (reflowLine T maxW raw).get? (i + 1) = some g →
      ∃ r rest, decodeRunes g = r :: rest ∧
        (displayWidth T f : Int) + (T.runeWidth r : Int) > maxW := by
  have hrs : decodeRunes (trimSpace raw) ≠ [] := by
    rw [decodeRunes_of_ne_nil _ hne]
    exact List.cons_ne_nil _ _
  have hinit : GreedyInv T maxW ⟨[], [], 0⟩ :=
    ⟨[], [], rfl, rfl, by simp [widthSum], by simp, by simp, by simp,
      by simp⟩
  obtain ⟨⟨chunks, bs, hall, hb, _, hcne, hval, hbv, hch⟩, hbne⟩ :=
    foldl_wrapRune_greedy T maxW hmax (decodeRunes (trimSpace raw)) ⟨[], [], 0⟩ hinit
      (decodeRunes_valid _) hw (Or.inl hrs)
  have hfr : reflowLine T maxW raw = (chunks ++ [bs]).map encodeRunes := by
    simp only [reflowLine, wrapLine, if_neg hne, hall, hb, List.map_append, List.map_cons,
      List.map_nil]
  have hbs : bs ≠ [] := by
    intro he
    rw [hb, he] at hbne
    exact hbne rfl
  have hLne : ∀ c ∈ chunks ++ [bs], c ≠ [] := by
    intro c hc
    rcases List.mem_append.mp hc with h | h
    · exact hcne c h
    · have : c = bs := by simpa using h
      rw [this]; exact hbs
  have hLval : ∀ c ∈ chunks ++ [bs], ∀ r ∈ c, ValidRune r := by
    intro c hc
    rcases List.mem_append.mp hc with h | h
    · exact hval c h
    · have : c = bs := by simpa using h
      rw [this]; exact hbv
  rw [hfr]
  constructor
  · intro f hf
    obtain ⟨c, hc, rfl⟩ := List.mem_map.mp hf
    exact encodeRunes_ne_nil c (hLne c hc)
  · intro i f g hf hg
    rw [List.get?_map] at hf hg
    cases hci : (chunks ++ [bs]).get? i with
    | none => rw [hci] at hf; simp at hf
    | some c =>
      cases hdi : (chunks ++ [bs]).get? (i + 1) with
      | none => rw [hdi] at hg; simp at hg
      | some d =>
        rw [hci] at hf
        rw [hdi] at hg
        simp only [Option.map_some', Option.some.injEq] at hf hg
        obtain ⟨r, rest, hd, hlt⟩ := chain_get? (Forced T maxW) _ i c d hch hci hdi
        refine ⟨r, rest, ?_, ?_⟩
        · rw [← hg, decodeRunes_encodeRunes d (hLval d (List.get?_mem hdi)), hd]
        · rw [← hf, displayWidth_encodeRunes T c (hLval c (List.get?_mem hci))]
          exact hlt

theorem reflowLine_greedy_witness :
    (∀ f ∈ reflowLine exampleTables 4 (str "  a中b中c中  "), f ≠ []) ∧
    ∀ (i : Nat) (f g : GoString),
      (reflowLine exampleTables 4 (str "  a中b中c中  ")).get? i = some f →
      (reflowLine exampleTables 4 (str "  a中b中c中  ")).get? (i + 1) = some g →
      ∃ r rest, decodeRunes g = r :: rest ∧
        (displayWidth exampleTables f : Int) + (exampleTables.runeWidth r : Int) > 4 :=
  reflowLine_greedy exampleTables 4 (str "  a中b中c中  ") (by decide) (by decide) (by decide)

/-! ## Viewport height -/

/-- The startup value of the viewport height is at least 1. -/
theorem initState_viewHeight_pos (T : Tables) (p : Option Progress)
    (file : Option (List GoString)) (w : Int) : 1 ≤ (initState T p file w).viewHeight := by
  cases p with
  | none => simp [initState]
  | some q =>
    simp only [initState]
    split_ifs <;> omega

/-- Every event keeps a viewport height that is within `[1, 12]` within `[1, 12]`. -/
theorem step_viewHeight_bounds (T : Tables) (s s1 : State) (ev : Event) (rnd : Nat)
    (hv : 1 ≤ s.viewHeight ∧ s.viewHeight ≤ 12)
    (h : step T s ev rnd = Outcome.running s1) : 1 ≤ s1.viewHeight ∧ s1.viewHeight ≤ 12 := by
  rcases step_running_cases T s s1 ev rnd h with ⟨file, w, _, e⟩ | ⟨k, _, e⟩ | ⟨_, e⟩ |
    ⟨k, ch, _, ⟨_, e⟩ | ⟨_, e⟩ | ⟨_, _, e⟩ | ⟨_, _, _, e⟩ | ⟨_, _, _, s2, h2, e⟩⟩
  · rcases advanceLog_cases s.currentLine rnd { s with lines := loadAndWrapBook T file w }
      with e2 | e2 <;> rw [e, e2] <;> exact hv
  · obtain ⟨c, e1, _⟩ := handleMouse_cases k s
    rcases advanceLog_cases s.currentLine rnd (handleMouse k s) with e2 | e2 <;>
      rw [e, e2, e1] <;> exact hv
  · rw [e]; exact hv
  · rw [e]; exact hv
  · rw [e]; exact hv
  · rw [e]
    rcases handleSearchInput_cases T k ch s with ⟨_, e1⟩ | ⟨_, e1⟩ | ⟨b, q, e1⟩
    · rw [e1, (selectMatchLoop_frame _ _ _).2.2.2.2.2.2.2.2.2.2.1]
      exact hv
    · rw [e1]; exact hv
    · rw [e1]; exact hv
  · obtain ⟨j, q, c, e1, _⟩ := handleJumpInput_cases k ch s
    rw [e, e1]; exact hv
  · have hc2 : 1 ≤ s2.viewHeight ∧ s2.viewHeight ≤ 12 := by
      rcases handleChar_cases ch s s2 h2 with rfl | ⟨c, rfl, _⟩ | rfl | rfl | ⟨d, hd⟩ |
        ⟨v, rfl, hvv⟩
      · exact hv
      · exact hv
      · exact hv
      · exact hv
      · rcases jumpMatch_cases d s s2 hd with rfl | ⟨_, _, m, line, _, rfl⟩
        · exact hv
        · exact hv
      · simp only []
        omega
    have hc3 : 1 ≤ (handleEsc k s2).viewHeight ∧ (handleEsc k s2).viewHeight ≤ 12 := by
      rcases handleEsc_cases k s2 with e3 | e3 <;> rw [e3] <;> exact hc2
    rcases advanceLog_cases s.currentLine rnd (handleEsc k s2) with e2 | e2 <;>
      rw [e, e2] <;> exact hc3

/-- In Normal mode the keys `+` and `=` add 1 to the viewport height unless it is 12 or
more, and the keys `-` and `_` subtract 1 unless it is 1 or less. -/
theorem view_height_keys (T : Tables) (s : State) (rnd : Nat)
    (hB : s.isBossMode = false) (hS : s.isSearching = false) (hJ : s.isJumping = false) :
    (∀ ch, ch = 43 ∨ ch = 61 →
      step T s (Event.key Key.nokey ch) rnd = Outcome.running
        { s with viewHeight := if s.viewHeight < 12 then s.viewHeight + 1 else s.viewHeight }) ∧
    (∀ ch, ch = 45 ∨ ch = 95 →
      step T s (Event.key Key.nokey ch) rnd = Outcome.running
        { s with viewHeight := if s.viewHeight > 1 then s.viewHeight - 1 else s.viewHeight }) := by
  constructor
  · intro ch hch
    have hq : ch ≠ 81 := by rcases hch with rfl | rfl <;> decide
    have hhc : handleChar ch s = some
        (if s.viewHeight < 12 then { s with viewHeight := s.viewHeight + 1 } else s) := by
      rcases hch with rfl | rfl <;> simp [handleChar]
    by_cases hc : s.viewHeight < 12 <;>
      simp [step, handleKey, hB, hS, hJ, hq, hhc, handleEsc, advanceLog, hc] <;>
      (cases s; simp_all)
  · intro ch hch
    have hq : ch ≠ 81 := by rcases hch with rfl | rfl <;> decide
    have hhc : handleChar ch s = some
        (if s.viewHeight > 1 then { s with viewHeight := s.viewHeight - 1 } else s) := by
      rcases hch with rfl | rfl <;> simp [handleChar]
    by_cases hc : s.viewHeight > 1 <;>
      simp [step, handleKey, hB, hS, hJ, hq, hhc, handleEsc, advanceLog, hc] <;>
      (cases s; simp_all)

/-- C12 (the code breaks it): a persisted record with `view_height = 100` is restored as
it is, for every content file and terminal width, so the startup state has
viewport height 100; the key `+` then leaves it at 100 and `-` lowers it to 99. -/
theorem persisted_view_height_unclamped (T : Tables) (file : Option (List GoString))
    (w : Int) (rnd : Nat) :
    Reachable T (initState T (some ⟨0, 100⟩) file w) ∧
    (initState T (some ⟨0, 100⟩) file w).viewHeight = 100 ∧
    ¬ ((initState T (some ⟨0, 100⟩) file w).viewHeight ≤ 12) ∧
    (step T (initState T (some ⟨0, 100⟩) file w) (Event.key Key.nokey 43) rnd).state.map
      State.viewHeight = some 100 ∧
    (step T (initState T (some ⟨0, 100⟩) file w) (Event.key Key.nokey 45) rnd).state.map
      State.viewHeight = some 99 := by
  refine ⟨Reachable.init _ file w, rfl, by simp [initState], ?_, ?_⟩
  · rw [(view_height_keys T _ rnd rfl rfl rfl).1 43 (Or.inl rfl)]
    simp [Outcome.state, initState]
  · rw [(view_height_keys T _ rnd rfl rfl rfl).2 45 (Or.inl rfl)]
    simp [Outcome.state, initState]

/-! ## Editing the search buffer -/

/-- In Searching mode a character `c` (not 0) appends its UTF-8 encoding to the buffer. -/
theorem search_type_char (T : Tables) (s : State) (c rnd : Nat)
    (hB : s.isBossMode = false) (hS : s.isSearching = true) (hc : c ≠ 0) :
    step T s (Event.key Key.nokey c) rnd =
      Outcome.running { s with searchQuery := s.searchQuery ++ encodeRune c } := by
  simp [step, handleKey, hB, hS, handleSearchInput, hc]

/-- In Searching mode backspace drops the last byte of a non-empty buffer and leaves an
empty buffer (and the whole state) as it is. -/
theorem search_backspace (T : Tables) (s : State) (ch rnd : Nat)
    (hB : s.isBossMode = false) (hS : s.isSearching = true) :
    step T s (Event.key Key.backspace ch) rnd =
      Outcome.running { s with searchQuery := s.searchQuery.dropLast } := by
  cases hq : s.searchQuery with
  | nil =>
    simp [step, handleKey, hB, hS, handleSearchInput, hq]
    cases s; simp_all
  | cons a l =>
    simp [step, handleKey, hB, hS, handleSearchInput, hq, List.dropLast_eq_take]

/-- Typing a character and pressing backspace leaves the buffer extended by the
encoding of the character without its last byte; for an ASCII character that
is the buffer as it was. -/
theorem search_type_then_backspace (T : Tables) (s : State) (c rnd rnd2 ch2 : Nat)
    (hB : s.isBossMode = false) (hS : s.isSearching = true) (hc : c ≠ 0) :
    (run T (Outcome.running s)
        [(Event.key Key.nokey c, rnd), (Event.key Key.backspace ch2, rnd2)]).state.map
      State.searchQuery = some (s.searchQuery ++ (encodeRune c).dropLast) ∧
    (c ≤ 0x7F →
      run T (Outcome.running s)
        [(Event.key Key.nokey c, rnd), (Event.key Key.backspace ch2, rnd2)]
        = Outcome.running s) := by
  have h1 := search_type_char T s c rnd hB hS hc
  have h2 := search_backspace T { s with searchQuery := s.searchQuery ++ encodeRune c } ch2 rnd2
    hB hS
  have hd : (s.searchQuery ++ encodeRune c).dropLast = s.searchQuery ++ (encodeRune c).dropLast :=
    List.dropLast_append_of_ne_nil _ (encodeRune_ne_nil c)
  constructor
  · simp only [run, h1, h2, Outcome.state, Option.map_some', hd]
  · intro hle
    have he : (encodeRune c).dropLast = [] := by
      simp [encodeRune, hle]
    simp only [run, h1, h2, hd, he, List.append_nil]

/-- C13 (the code breaks it): in Searching mode with an empty buffer, typing the
character U+4E2D puts its three bytes `E4 B8 AD` in the buffer, and backspace
then removes only the last byte: the buffer is `E4 B8`, not empty. -/
theorem backspace_cuts_multibyte :
    (run exampleTables (Outcome.running exampleState)
        [(Event.key Key.nokey 47, 9), (Event.key Key.nokey 0x4E2D, 9)]).state.map
      (fun s => (s.isSearching, s.searchQuery)) = some (true, [0xE4, 0xB8, 0xAD]) ∧
    (run exampleTables (Outcome.running exampleState)
        [(Event.key Key.nokey 47, 9), (Event.key Key.nokey 0x4E2D, 9),
         (Event.key Key.backspace 0, 9)]).state.map
      (fun s => (s.isSearching, s.searchQuery)) = some (true, [0xE4, 0xB8]) := by
  decide

/-! ## `drawUI` -/

/-- An empty content file gives no fragments at all. -/
theorem loadAndWrapBook_empty (T : Tables) (w : Int) : loadAndWrapBook T (some []) w = [] := rfl

/-- With no fragments `drawUI` panics in every mode: the status line divides by
`len(lines)`. -/
theorem drawUI_no_lines (logs : List GoString) (h : Int) (s : State) (hl : s.lines = []) :
    drawUI logs h s = none := by
  simp only [drawUI, hl, List.length_nil]
  split <;> simp

/-- A missing content file and a file with at least one line give at least one
fragment. -/
theorem loadAndWrapBook_ne_nil (T : Tables) (file : Option (List GoString)) (w : Int)
    (h : file ≠ some []) : loadAndWrapBook T file w ≠ [] := by
  cases file with
  | none => simp [loadAndWrapBook, str, encodeRunes]
  | some rawLines =>
    cases rawLines with
    | nil => exact absurd rfl h
    | cons l ls =>
      rw [loadAndWrapBook_some]
      simp only [List.flatMap_cons]
      intro he
      have h1 := (List.append_eq_nil.mp he).1
      simp only [reflowLine, wrapLine] at h1
      split_ifs at h1 <;> simp at h1

theorem drawLogs_isSome (logs : List GoString) (logOffset : Int) (hl : logs ≠ [])
    (ho : 0 ≤ logOffset) : ∀ is : List Nat, ∃ calls, drawLogs logs logOffset is = some calls := by
  intro is
  have hlen : logs.length ≠ 0 := fun h => hl (List.length_eq_zero.mp h)
  have hpos : (0 : Int) < (logs.length : Int) := by omega
  induction is with
  | nil => exact ⟨[], rfl⟩
  | cons i rest ih =>
    obtain ⟨calls, hc⟩ := ih
    have h0 : (0 : Int) ≤ (i : Int) + logOffset := by omega
    have e := Int.tmod_eq_emod h0 (le_of_lt hpos)
    obtain ⟨content, hs, _⟩ := sliceGet_of_lt logs (((i : Int) + logOffset).tmod (logs.length : Int))
      (by rw [e]; exact Int.emod_nonneg _ (by omega))
      (by rw [e]; exact Int.emod_lt_of_pos _ hpos)
    exact ⟨⟨0, i, content, logColor content⟩ :: calls,
      by simp only [drawLogs, if_neg hlen, hs, hc]⟩

theorem drawPane_isSome (h : Int) (s : State) (hc : 0 ≤ s.currentLine) :
    ∀ is : List Nat, ∃ calls, drawPane h s is = some calls := by
  intro is
  induction is with
  | nil => exact ⟨[], rfl⟩
  | cons i rest ih =>
    obtain ⟨calls, hcs⟩ := ih
    by_cases hlt : s.currentLine + (i : Int) < (s.lines.length : Int)
    · obtain ⟨line, hs, _⟩ := sliceGet_of_lt s.lines (s.currentLine + (i : Int)) (by omega) hlt
      exact ⟨⟨0, h - s.viewHeight + i, str ">> " ++ line, Color.blackBold⟩ :: calls,
        by simp only [drawPane, if_pos hlt, hs, hcs]⟩
    · exact ⟨calls, by simp only [drawPane, if_neg hlt, hcs]⟩

/-- With at least one fragment, a non-negative current line, at least one decoy line
and a non-negative log offset, `drawUI` does not panic. -/
theorem drawUI_isSome (logs : List GoString) (h : Int) (s : State) (hl : s.lines ≠ [])
    (hc : 0 ≤ s.currentLine) (hlogs : logs ≠ []) (ho : 0 ≤ s.logOffset) :
    ∃ calls, drawUI logs h s = some calls := by
  have hlen : s.lines.length ≠ 0 := fun he => hl (List.length_eq_zero.mp he)
  obtain ⟨lc, hlc⟩ := drawLogs_isSome logs s.logOffset hlogs ho
    (List.range (if s.isHelpMode then h - (helpDocs.length : Int) - 3
      else h - s.viewHeight - 3).toNat)
  obtain ⟨pc, hpc⟩ := drawPane_isSome h s hc (List.range s.viewHeight.toNat)
  simp only [drawUI, hlc, if_neg hlen, hpc]
  split_ifs <;> exact ⟨_, rfl⟩

/-- C16 (the code breaks it): for an empty content file (it opens and has no line) the
fragment list is empty, and the first `drawUI` of the loop panics, for every
saved progress, terminal size and decoy lines, because
`(currentLine+1)*100/len(lines)` divides by zero. A missing file and a file
with at least one line give a first `drawUI` that succeeds when the saved
`last_line` is not negative. -/
theorem drawUI_empty_file_panics (T : Tables) (p : Option Progress) (w h : Int)
    (logs : List GoString) :
    (initState T p (some []) w).lines = [] ∧
    drawUI logs h (initState T p (some []) w) = none ∧
    ∀ file : Option (List GoString), file ≠ some [] → logs ≠ [] →
      (∀ q, p = some q → 0 ≤ q.LastLine) →
      ∃ calls, drawUI logs h (initState T p file w) = some calls := by
  refine ⟨rfl, drawUI_no_lines logs h _ rfl, ?_⟩
  intro file hf hlogs hp
  apply drawUI_isSome logs h _ _ _ hlogs (le_refl 0)
  · exact loadAndWrapBook_ne_nil T file w hf
  · cases p with
    | none => simp [initState]
    | some q =>
      have := hp q rfl
      simp only [initState]
      split_ifs <;> omega

theorem updateSearchResults_nonneg (T : Tables) (q : GoString) (lines : List GoString) :
    ∀ x ∈ updateSearchResults T q lines, (0 : Int) ≤ x := by
  intro x hx
  unfold updateSearchResults at hx
  rw [updateSearchResultsLoop_mem] at hx
  rcases hx with hx | ⟨k, hk, _⟩
  · simp at hx
  · omega

theorem sliceGet_mem {α : Type} (xs : List α) (i : Int) (x : α) (h : sliceGet xs i = some x) :
    x ∈ xs := by
  simp only [sliceGet] at h
  split_ifs at h
  exact List.get?_mem h

/-- Every event other than a resize onto an empty file keeps a state safe to draw. -/
theorem step_drawSafe (T : Tables) (s s1 : State) (ev : Event) (rnd : Nat)
    (hd : DrawSafe s) (hev : ∀ w, ev ≠ Event.resize (some []) w)
    (h : step T s ev rnd = Outcome.running s1) : DrawSafe s1 := by
  obtain ⟨hl, hc, ho, hr⟩ := hd
  have hadv : ∀ (o : Int) (x : State), DrawSafe x → DrawSafe (advanceLog o rnd x) := by
    intro o x hx
    rcases advanceLog_cases o rnd x with e | e
    · rw [e]; exact hx
    · rw [e]
      exact ⟨hx.1, hx.2.1, by have := hx.2.2.1; simp only []; omega, hx.2.2.2⟩
  rcases step_running_cases T s s1 ev rnd h with ⟨file, w, he, e⟩ | ⟨k, _, e⟩ | ⟨_, e⟩ |
    ⟨k, ch, _, ⟨_, e⟩ | ⟨_, e⟩ | ⟨_, _, e⟩ | ⟨_, _, _, e⟩ | ⟨_, _, _, s2, h2, e⟩⟩
  · rw [e]
    apply hadv
    refine ⟨loadAndWrapBook_ne_nil T file w ?_, hc, ho, hr⟩
    intro hf
    rw [hf] at he
    exact hev w he
  · rw [e]
    apply hadv
    obtain ⟨c, e1, hcc⟩ := handleMouse_cases k s
    rw [e1]
    exact ⟨hl, by simp only []; omega, ho, hr⟩
  · rw [e]; exact ⟨hl, hc, ho, hr⟩
  · rw [e]; exact ⟨hl, hc, ho, hr⟩
  · rw [e]; exact ⟨hl, hc, ho, hr⟩
  · rw [e]
    rcases handleSearchInput_cases T k ch s with ⟨_, e1⟩ | ⟨_, e1⟩ | ⟨b, q, e1⟩
    · rw [e1]
      rcases selectMatchLoop_cases (updateSearchResults T s.searchQuery s.lines) 0
        { s with isSearching := false, lastSearchQuery := s.searchQuery, searchActive := true,
                 searchResults := updateSearchResults T s.searchQuery s.lines,
                 matchIndex := 0 } with e2 | ⟨j, line, hj, e2⟩
      · rw [e2]
        exact ⟨hl, hc, ho, updateSearchResults_nonneg T _ _⟩
      · rw [e2]
        exact ⟨hl, updateSearchResults_nonneg T _ _ line (List.get?_mem hj), ho,
          updateSearchResults_nonneg T _ _⟩
    · rw [e1]
      exact ⟨hl, hc, ho, by intro x hx; simp at hx⟩
    · rw [e1]; exact ⟨hl, hc, ho, hr⟩
  · obtain ⟨j, q, c, e1, hcc⟩ := handleJumpInput_cases k ch s
    rw [e, e1]
    exact ⟨hl, by simp only []; omega, ho, hr⟩
  · rw [e]
    apply hadv
    have hc2 : DrawSafe s2 := by
      rcases handleChar_cases ch s s2 h2 with rfl | ⟨c, rfl, hcc⟩ | rfl | rfl | ⟨d, hd⟩ |
        ⟨v, rfl, _⟩
      · exact ⟨hl, hc, ho, hr⟩
      · exact ⟨hl, by simp only []; omega, ho, hr⟩
      · exact ⟨hl, hc, ho, hr⟩
      · exact ⟨hl, hc, ho, hr⟩
      · rcases jumpMatch_cases d s s2 hd with rfl | ⟨_, _, m, line, hm, rfl⟩
        · exact ⟨hl, hc, ho, hr⟩
        · exact ⟨hl, hr line (sliceGet_mem _ _ _ hm), ho, hr⟩
      · exact ⟨hl, hc, ho, hr⟩
    rcases handleEsc_cases k s2 with e3 | e3 <;> rw [e3] <;> exact hc2

/-- When the content is never an empty file and the saved `last_line` is not negative,
`drawUI` succeeds in the startup state and after every further event. -/
theorem drawUI_ok_of_drawSafe (T : Tables) (logs : List GoString) (h : Int) (hlogs : logs ≠ []) :
    (∀ (p : Option Progress) (file : Option (List GoString)) (w : Int), file ≠ some [] →
      (∀ q, p = some q → 0 ≤ q.LastLine) → DrawSafe (initState T p file w)) ∧
    (∀ (s s1 : State) (ev : Event) (rnd : Nat), DrawSafe s →
      (∀ w, ev ≠ Event.resize (some []) w) → step T s ev rnd = Outcome.running s1 →
      DrawSafe s1) ∧
    (∀ s : State, DrawSafe s → ∃ calls, drawUI logs h s = some calls) := by
  refine ⟨?_, ?_, ?_⟩
  · intro p file w hf hp
    refine ⟨loadAndWrapBook_ne_nil T file w hf, ?_, le_refl 0, by intro x hx; simp [initState] at hx⟩
    cases p with
    | none => simp [initState]
    | some q =>
      have := hp q rfl
      simp only [initState]
      split_ifs <;> omega
  · intro s s1 ev rnd hd hev hs
    exact step_drawSafe T s s1 ev rnd hd hev hs
  · intro s hd
    exact drawUI_isSome logs h s hd.1 hd.2.1 hlogs hd.2.2.1

/-- The decoy lines are never empty: `loadFakeLogs` replaces them only by a non-empty
list. -/
theorem loadFakeLogs_ne_nil (file : Option (List GoString)) (logs : List GoString)
    (h : logs ≠ []) : loadFakeLogs file logs ≠ [] := by
  cases file with
  | none => exact h
  | some rawLines =>
    simp only [loadFakeLogs]
    split_ifs with hl
    · exact List.length_pos.mp hl
    · exact h

/-! ## A search commit with every match before the current line -/

theorem selectMatchLoop_all_before (rs : List Int) : ∀ (i : Int) (s : State),
    (∀ x ∈ rs, x < s.currentLine) → selectMatchLoop rs i s = s := by
  induction rs with
  | nil => intro i s _; rfl
  | cons r rs ih =>
    intro i s h
    have hr : ¬ (r ≥ s.currentLine) := by
      have := h r (List.mem_cons_self r rs)
      omega
    simp only [selectMatchLoop, if_neg hr]
    exact ih (i + 1) s (fun x hx => h x (List.mem_cons_of_mem r hx))

/-- C3 (the code breaks it): a search commit with a non-empty buffer whose matches all
lie before the current line sets the match cursor to 0 and leaves the current
line where it was, so the current line is not the match at the cursor (the
first match of the document) as the claim requires; with two or more matches
the next `n` then moves cursor and line to the match at position 1, passing
over the first match. -/
theorem search_commit_fallback_keeps_line (T : Tables) (s : State) (ch rnd : Nat)
    (hB : s.isBossMode = false) (hS : s.isSearching = true) (hJ : s.isJumping = false)
    (hq : s.searchQuery ≠ [])
    (hres : updateSearchResults T s.searchQuery s.lines ≠ [])
    (hall : ∀ x ∈ updateSearchResults T s.searchQuery s.lines, x < s.currentLine) :
    ∃ s1 first, step T s (Event.key Key.enter ch) rnd = Outcome.running s1 ∧
      s1.searchResults = updateSearchResults T s.searchQuery s.lines ∧
      s1.matchIndex = 0 ∧ sliceGet s1.searchResults s1.matchIndex = some first ∧
      s1.currentLine = s.currentLine ∧ first < s1.currentLine ∧
      (2 ≤ s1.searchResults.length → ∀ rnd2, ∃ s2 second,
        step T s1 (Event.key Key.nokey 110) rnd2 = Outcome.running s2 ∧
        s2.matchIndex = 1 ∧ sliceGet s1.searchResults 1 = some second ∧
        s2.currentLine = second) := by
  have hlen : (updateSearchResults T s.searchQuery s.lines).length > 0 :=
    List.length_pos.mpr hres
  have hstep : step T s (Event.key Key.enter ch) rnd = Outcome.running
      (selectMatchLoop (updateSearchResults T s.searchQuery s.lines) 0
        { s with isSearching := false, lastSearchQuery := s.searchQuery, searchActive := true,
                 searchResults := updateSearchResults T s.searchQuery s.lines,
                 matchIndex := 0 }) := by
    simp [step, handleKey, hB, hS, handleSearchInput, hq, hlen]
  rw [selectMatchLoop_all_before (updateSearchResults T s.searchQuery s.lines) 0
    { s with isSearching := false, lastSearchQuery := s.searchQuery, searchActive := true,
             searchResults := updateSearchResults T s.searchQuery s.lines,
             matchIndex := 0 } hall] at hstep
  obtain ⟨first, hf, _⟩ := sliceGet_of_lt (updateSearchResults T s.searchQuery s.lines) 0
    (le_refl 0) (by omega)
  refine ⟨_, first, hstep, rfl, rfl, hf, rfl, hall first (sliceGet_mem _ _ _ hf), ?_⟩
  intro h2 rnd2
  obtain ⟨line, l, hl, hstep2⟩ := step_jumpMatch T
    { s with isSearching := false, lastSearchQuery := s.searchQuery, searchActive := true,
             searchResults := updateSearchResults T s.searchQuery s.lines,
             matchIndex := 0 } rnd2 110 1 (Or.inl ⟨rfl, rfl⟩) hB rfl hJ rfl (le_refl 0)
    (by show (0 : Int) < ((updateSearchResults T s.searchQuery s.lines).length : Int); omega)
  have h2' : 2 ≤ (updateSearchResults T s.searchQuery s.lines).length := h2
  have e : ((0 : Int) + 1) % ((updateSearchResults T s.searchQuery s.lines).length : Int) = 1 :=
    Int.emod_eq_of_lt (by omega) (by omega)
  simp only [e] at hl hstep2
  exact ⟨_, line, hstep2, rfl, hl, rfl⟩

theorem search_commit_fallback_keeps_line_witness :
    ∃ s1 first, step exampleTables
        { initState exampleTables none (some [str "boss", str "Boss", str "x"]) 80 with
          currentLine := 2, isSearching := true, searchQuery := str "boss" }
        (Event.key Key.enter 0) 0 = Outcome.running s1 ∧
      s1.searchResults = updateSearchResults exampleTables (str "boss")
        [str "boss", str "Boss", str "x"] ∧
      s1.matchIndex = 0 ∧ sliceGet s1.searchResults s1.matchIndex = some first ∧
      s1.currentLine = 2 ∧ first < s1.currentLine ∧
      (2 ≤ s1.searchResults.length → ∀ rnd2, ∃ s2 second,
        step exampleTables s1 (Event.key Key.nokey 110) rnd2 = Outcome.running s2 ∧
        s2.matchIndex = 1 ∧ sliceGet s1.searchResults 1 = some second ∧
        s2.currentLine = second) :=
  search_commit_fallback_keeps_line exampleTables
    { initState exampleTables none (some [str "boss", str "Boss", str "x"]) 80 with
      currentLine := 2, isSearching := true, searchQuery := str "boss" }
    0 0 (by decide) (by decide) (by decide) (by decide) (by decide) (by decide)

/-- The run behind the example: on the file with the lines "boss", "Boss", "x" the
keys `j`, `j`, `/`, `b`, `o`, `s`, `s` and Enter give the match set `[0, 1]`
with the cursor at 0 and the current line still 2; the key `n` then gives
cursor 1 and line 1, and line 0 has not been shown. -/
theorem search_commit_fallback_run :
    ((run exampleTables
        (Outcome.running
          (initState exampleTables none (some [str "boss", str "Boss", str "x"]) 80))
        [(Event.key Key.nokey 106, 9), (Event.key Key.nokey 106, 9),
         (Event.key Key.nokey 47, 9), (Event.key Key.nokey 98, 9),
         (Event.key Key.nokey 111, 9), (Event.key Key.nokey 115, 9),
         (Event.key Key.nokey 115, 9), (Event.key Key.enter 0, 9)]).state.map
      (fun s => (s.searchResults, s.matchIndex, s.currentLine))
      = some ([0, 1], 0, 2)) ∧
    ((run exampleTables
        (Outcome.running
          (initState exampleTables none (some [str "boss", str "Boss", str "x"]) 80))
        [(Event.key Key.nokey 106, 9), (Event.key Key.nokey 106, 9),
         (Event.key Key.nokey 47, 9), (Event.key Key.nokey 98, 9),
         (Event.key Key.nokey 111, 9), (Event.key Key.nokey 115, 9),
         (Event.key Key.nokey 115, 9), (Event.key Key.enter 0, 9),
         (Event.key Key.nokey 110, 9)]).state.map
      (fun s => (s.searchResults, s.matchIndex, s.currentLine))
      = some ([0, 1], 1, 1)) := by
  constructor <;> decide

/-! ## The position store -/

theorem mapSet_lookup_self (m : List (GoString × Progress)) (k : GoString) (p : Progress) :
    (mapSet m k p).lookup k = some p := by
  induction m with
  | nil => simp [mapSet, List.lookup]
  | cons e m ih =>
    obtain ⟨a, b⟩ := e
    by_cases h : a = k
    · simp [mapSet, h, List.lookup]
    · have hk : (k == a) = false := by
        simp only [beq_eq_false_iff_ne, ne_eq]
        exact fun e => h e.symm
      simp only [mapSet, if_neg h, List.lookup, hk]
      exact ih

theorem mapSet_lookup_other (m : List (GoString × Progress)) (k q : GoString) (p : Progress)
    (h : q ≠ k) : (mapSet m k p).lookup q = m.lookup q := by
  induction m with
  | nil =>
    have hk : (q == k) = false := by simpa using h
    simp [mapSet, List.lookup, hk]
  | cons e m ih =>
    obtain ⟨a, b⟩ := e
    by_cases ha : a = k
    · have hq : (q == a) = false := by
        rw [ha]; simpa using h
      have hk : (q == k) = false := by simpa using h
      simp [mapSet, ha, List.lookup, hk]
    · simp only [mapSet, if_neg ha, List.lookup]
      cases hqa : (q == a) with
      | true => rfl
      | false => exact ih

/-- C18 (the code breaks it on a nil map): `saveProgress` panics when `progressStore` is
nil, which is what `loadProgress` leaves when `json.Unmarshal` sets the map to
nil (as it does for the document `null`): the lookup at startup finds no entry
and nothing is saved at `Q`. On a map `m` that is not nil, saving the record
`r` under the path `P` gives the map in which `P` has the entry `r` and every
other path the entry it had in `m`, and hands the encoding of that map to the
file write; a later save under another path `Q` keeps the entry of `P`; and
for a decoder that reads back the entries of the written map, loading the
written file gives `P -> r` and for every other path the entry of `m`. -/
theorem saveProgress_merge_or_panic (jsonMarshal : Store → GoString) (P : GoString)
    (r : Progress) :
    saveProgress jsonMarshal none P r.ViewHeight r.LastLine = none ∧
    (∀ (jsonUnmarshal : GoString → Store → Store) (data : GoString),
      jsonUnmarshal data emptyStore = none →
      storeGet (loadProgress jsonUnmarshal (some data) emptyStore) P = none ∧
      saveProgress jsonMarshal (loadProgress jsonUnmarshal (some data) emptyStore) P
        r.ViewHeight r.LastLine = none) ∧
    (∀ m : List (GoString × Progress),
      saveProgress jsonMarshal (some m) P r.ViewHeight r.LastLine
        = some (some (mapSet m P r), jsonMarshal (some (mapSet m P r))) ∧
      storeGet (some (mapSet m P r)) P = some r ∧
      ∀ Q, Q ≠ P → storeGet (some (mapSet m P r)) Q = storeGet (some m) Q) ∧
    (∀ (m : List (GoString × Progress)) (Q : GoString) (r2 : Progress), Q ≠ P →
      ∃ store data,
        saveProgress jsonMarshal (some (mapSet m P r)) Q r2.ViewHeight r2.LastLine
          = some (store, data) ∧
        storeGet store P = some r ∧ storeGet store Q = some r2) ∧
    (∀ (jsonUnmarshal : GoString → Store → Store) (m : List (GoString × Progress))
      (store : Store) (data : GoString),
      saveProgress jsonMarshal (some m) P r.ViewHeight r.LastLine = some (store, data) →
      (∀ k, storeGet (jsonUnmarshal (jsonMarshal store) emptyStore) k = storeGet store k) →
      storeGet (loadProgress jsonUnmarshal (some data) emptyStore) P = some r ∧
      ∀ Q, Q ≠ P →
        storeGet (loadProgress jsonUnmarshal (some data) emptyStore) Q = storeGet (some m) Q) := by
  refine ⟨rfl, ?_, ?_, ?_, ?_⟩
  · intro jsonUnmarshal data hnil
    simp only [loadProgress, hnil]
    exact ⟨rfl, rfl⟩
  · intro m
    refine ⟨rfl, mapSet_lookup_self m P r, ?_⟩
    intro Q hQ
    exact mapSet_lookup_other m P Q r hQ
  · intro m Q r2 hQ
    refine ⟨_, _, rfl, ?_, mapSet_lookup_self _ Q r2⟩
    have hPQ : P ≠ Q := fun h => hQ h.symm
    show (mapSet (mapSet m P r) Q r2).lookup P = some r
    rw [mapSet_lookup_other _ Q P r2 hPQ]
    exact mapSet_lookup_self m P r
  · intro jsonUnmarshal m store data hsave hrt
    have hs : saveProgress jsonMarshal (some m) P r.ViewHeight r.LastLine
        = some (some (mapSet m P r), jsonMarshal (some (mapSet m P r))) := rfl
    rw [hs] at hsave
    simp only [Option.some.injEq, Prod.mk.injEq] at hsave
    obtain ⟨h1, h2⟩ := hsave
    subst h1; subst h2
    simp only [loadProgress]
    refine ⟨?_, ?_⟩
    · rw [hrt]; exact mapSet_lookup_self m P r
    · intro Q hQ
      rw [hrt]; exact mapSet_lookup_other m P Q r hQ

/-- The example of the claim with the codec of the examples: after a cache file `null`
the save panics; saving `{7, 4}` under `/a` in a map that holds `/b` writes the
document with both members, and loading that document gives `/a -> {7, 4}`
and the entry `/b` had. -/
theorem saveProgress_merge_or_panic_witness :
    exampleUnmarshal (str "null") emptyStore = none ∧
    saveProgress exampleMarshal (loadProgress exampleUnmarshal (some (str "null")) emptyStore)
      (str "/a") 4 7 = none ∧
    saveProgress exampleMarshal (some [(str "/b", { LastLine := 1, ViewHeight := 3 })])
      (str "/a") 4 7
      = some (some [(str "/b", { LastLine := 1, ViewHeight := 3 }),
                    (str "/a", { LastLine := 7, ViewHeight := 4 })], exampleDocument) ∧
    (storeGet (loadProgress exampleUnmarshal (some exampleDocument) emptyStore) (str "/a")
        = some { LastLine := 7, ViewHeight := 4 } ∧
      ∀ Q, Q ≠ str "/a" →
        storeGet (loadProgress exampleUnmarshal (some exampleDocument) emptyStore) Q
          = storeGet (some [(str "/b", { LastLine := 1, ViewHeight := 3 })]) Q) :=
  ⟨by decide,
   ((saveProgress_merge_or_panic exampleMarshal (str "/a")
      { LastLine := 7, ViewHeight := 4 }).2.1 exampleUnmarshal (str "null") (by decide)).2,
   by decide,
   (saveProgress_merge_or_panic exampleMarshal (str "/a")
      { LastLine := 7, ViewHeight := 4 }).2.2.2.2 exampleUnmarshal
      [(str "/b", { LastLine := 1, ViewHeight := 3 })]
      (some [(str "/b", { LastLine := 1, ViewHeight := 3 }),
             (str "/a", { LastLine := 7, ViewHeight := 4 })])
      exampleDocument (by decide)
      (by
        intro k
        have e : exampleUnmarshal
            (exampleMarshal (some [(str "/b", { LastLine := 1, ViewHeight := 3 }),
                    (str "/a", { LastLine := 7, ViewHeight := 4 })])) emptyStore
            = some [(str "/a", { LastLine := 7, ViewHeight := 4 }),
                    (str "/b", { LastLine := 1, ViewHeight := 3 })] := by decide
        rw [e]
        by_cases ha : k = str "/a"
        · subst ha; decide
        · by_cases hb : k = str "/b"
          · subst hb; decide
          · have h1 : (k == str "/a") = false := by simpa using ha
            have h2 : (k == str "/b") = false := by simpa using hb
            simp only [storeGet, List.lookup, h1, h2])⟩

/-- Quitting in a state `s` leaves the loop and saves the current line and the viewport
height of `s` under the book path, when the store is not nil. -/
theorem quit_saves_position (T : Tables) (jsonMarshal : Store → GoString)
    (m : List (GoString × Progress)) (bookPath : GoString) (s : State) (rnd : Nat)
    (hB : s.isBossMode = false) (hS : s.isSearching = false) (hJ : s.isJumping = false) :
    step T s (Event.key Key.nokey 81) rnd = Outcome.exited s ∧
    ∃ store data, saveProgress jsonMarshal (some m) bookPath s.viewHeight s.currentLine
        = some (store, data) ∧
      storeGet store bookPath = some { LastLine := s.currentLine, ViewHeight := s.viewHeight } := by
  constructor
  · simp [step, handleKey, hB, hS, hJ]
  · exact ⟨_, _, rfl, mapSet_lookup_self m bookPath _⟩

end MoyuShuang
